import Mathlib

/-!
# Verification of `tools/batools/appmodule.py`

Shallow embedding of the app-module generator: the init-order resolver
(`_add_init` and the loop in `generate_app_module` that drives it), the
generated-text assembly of `generate_app_module`, and a model of
`efrotools.replace_section` (whose source is outside this repository and is
therefore modelled from the specification).

Python `dict[str, ...]` values are embedded as association lists with
distinct keys (`KeysNodup` where dict semantics matter); the dict invariant
that the key of a `FeatureSet` entry equals `fset.name` is used to identify
the appended `fset.name` with the mapping key.  Python string comparison is
lexicographic on code points, matching `String`'s linear order.
`sorted(<python set>)` enumerates the distinct members in increasing order,
which is `sortDedup` of any enumeration of the set.
-/

namespace AppModule

/-- Errors raised during init-order resolution: the `RuntimeError` from the
`depth > 10` check in `_add_init` (carrying the feature-set name in the
message), and the `assert fset.name not in init_order` statement. -/
inductive ResolveErr where
  | depCycle (name : String)
  | assertFail (name : String)
  deriving Repr, DecidableEq

/-- A dependency mapping: feature-set name to the list of names in its
`python_app_subsystem_dependencies` set. -/
abbrev DepMap := List (String × List String)

/-- Python string comparison: lexicographic on the code points. -/
def pyLeB : List Char → List Char → Bool
  | [], _ => true
  | _ :: _, [] => false
  | c :: cs, d :: ds => if c < d then true else if d < c then false else pyLeB cs ds

/-- The non-strict order Python's `sorted` uses on `str` values. -/
def pyLe (a b : String) : Prop := pyLeB a.data b.data = true

instance : DecidableRel pyLe :=
  fun a b => inferInstanceAs (Decidable (pyLeB a.data b.data = true))

theorem pyLeB_total : ∀ a b, pyLeB a b = true ∨ pyLeB b a = true := by
  intro a
  induction a with
  | nil => intro b; exact Or.inl rfl
  | cons c cs ih =>
    intro b
    cases b with
    | nil => exact Or.inr rfl
    | cons d ds =>
      by_cases h1 : c < d
      · left; rw [pyLeB, if_pos h1]
      · by_cases h2 : d < c
        · right; rw [pyLeB, if_pos h2]
        · rcases ih ds with h | h
          · left; rw [pyLeB, if_neg h1, if_neg h2]; exact h
          · right; rw [pyLeB, if_neg h2, if_neg h1]; exact h

theorem char_eq_of_not_lt {c d : Char} (h1 : ¬ c < d) (h2 : ¬ d < c) : c = d := by
  have := lt_or_ge c d
  rcases this with h | h
  · exact absurd h h1
  · rcases lt_or_eq_of_le h with h' | h'
    · exact absurd h' h2
    · exact h'.symm

theorem pyLeB_antisymm : ∀ a b, pyLeB a b = true → pyLeB b a = true → a = b := by
  intro a
  induction a with
  | nil =>
    intro b hab hba
    cases b with
    | nil => rfl
    | cons d ds => simp [pyLeB] at hba
  | cons c cs ih =>
    intro b hab hba
    cases b with
    | nil => simp [pyLeB] at hab
    | cons d ds =>
      by_cases h1 : c < d
      · rw [pyLeB, if_neg (asymm h1), if_pos h1] at hba
        simp at hba
      · by_cases h2 : d < c
        · rw [pyLeB, if_neg h1, if_pos h2] at hab
          simp at hab
        · have hcd : c = d := char_eq_of_not_lt h1 h2
          subst hcd
          rw [pyLeB, if_neg h1, if_neg h1] at hab
          rw [pyLeB, if_neg h1, if_neg h1] at hba
          rw [ih ds hab hba]

theorem pyLeB_trans : ∀ a b c, pyLeB a b = true → pyLeB b c = true →
    pyLeB a c = true := by
  intro a
  induction a with
  | nil => intro b c _ _; rfl
  | cons x xs ih =>
    intro b c hab hbc
    cases b with
    | nil => simp [pyLeB] at hab
    | cons y ys =>
      cases c with
      | nil => simp [pyLeB] at hbc
      | cons z zs =>
        by_cases hxy : x < y
        · by_cases hyz : y < z
          · rw [pyLeB, if_pos (lt_trans hxy hyz)]
          · by_cases hzy : z < y
            · rw [pyLeB, if_neg hyz, if_pos hzy] at hbc
              simp at hbc
            · have : y = z := char_eq_of_not_lt hyz hzy
              subst this
              rw [pyLeB, if_pos hxy]
        · by_cases hyx : y < x
          · rw [pyLeB, if_neg hxy, if_pos hyx] at hab
            simp at hab
          · have : x = y := char_eq_of_not_lt hxy hyx
            subst this
            rw [pyLeB, if_neg hxy, if_neg hxy] at hab
            by_cases hyz : x < z
            · rw [pyLeB, if_pos hyz]
            · by_cases hzy : z < x
              · rw [pyLeB, if_neg hyz, if_pos hzy] at hbc
                simp at hbc
              · have : x = z := char_eq_of_not_lt hyz hzy
                subst this
                rw [pyLeB, if_neg hyz, if_neg hyz]
                rw [pyLeB, if_neg hyz, if_neg hyz] at hbc
                exact ih ys zs hab hbc

instance : IsTotal String pyLe :=
  ⟨fun a b => pyLeB_total a.data b.data⟩

instance : IsTrans String pyLe :=
  ⟨fun a b c h h2 => pyLeB_trans a.data b.data c.data h h2⟩

instance : IsAntisymm String pyLe :=
  ⟨fun a b h h2 => by
    cases a; cases b
    exact congrArg String.mk (pyLeB_antisymm _ _ h h2)⟩

/-- `sorted(s)` for a Python set `s` enumerated by a list: the distinct
members in increasing order. -/
def sortDedup (l : List String) : List String :=
  l.dedup.insertionSort pyLe

/-- Comparison of dict items by key, as used by `sorted(d.items())` (keys are
distinct in a dict, so the tuple comparison never reaches the values). -/
def keyLE {β : Type} (p q : String × β) : Prop := pyLe p.1 q.1

instance {β : Type} : DecidableRel (keyLE (β := β)) :=
  fun p q => inferInstanceAs (Decidable (pyLe p.1 q.1))

instance {β : Type} : IsTotal (String × β) keyLE :=
  ⟨fun p q => IsTotal.total (r := pyLe) p.1 q.1⟩

instance {β : Type} : IsTrans (String × β) keyLE :=
  ⟨fun _ _ _ h h2 => IsTrans.trans (r := pyLe) _ _ _ h h2⟩

/-- `sorted(d.items())`. -/
def sortItems {β : Type} (m : List (String × β)) : List (String × β) :=
  m.insertionSort keyLE

mutual

/-- `_add_init(fset, allsets, init_order, depth)`.  The mutated `init_order`
list is threaded explicitly; a raised exception is the `some` component of
the result, returned together with the list as mutated so far.  The call's
`fset` is passed as its `name` and its `python_app_subsystem_dependencies`
enumeration `deps`. -/
def addInit (m : DepMap) (name : String) (deps : List String)
    (order : List String) (depth : Nat) : List String × Option ResolveErr :=
  if _h : depth > 10 then
    (order, some (.depCycle name))
  else if name ∈ order then
    (order, none)
  else
    match addDeps m (sortDedup deps) order (depth + 1) with
    | (order2, some e) => (order2, some e)
    | (order2, none) =>
      if name ∈ order2 then (order2, some (.assertFail name))
      else (order2 ++ [name], none)
termination_by (12 - depth, 0)
decreasing_by simp_wf; omega

/-- The `for depname in sorted(...)` loop body of `_add_init`: process the
remaining dependency names at recursion depth `ndepth`, skipping names absent
from `allsets` and stopping at the first raised exception. -/
def addDeps (m : DepMap) (names : List String) (order : List String)
    (ndepth : Nat) : List String × Option ResolveErr :=
  match names with
  | [] => (order, none)
  | dn :: rest =>
    match List.lookup dn m with
    | none => addDeps m rest order ndepth
    | some ddeps =>
      match addInit m dn ddeps order ndepth with
      | (order2, some e) => (order2, some e)
      | (order2, none) => addDeps m rest order2 ndepth
termination_by (12 - ndepth, names.length + 1)
decreasing_by all_goals (simp_wf; omega)

end

/-- The loop `for fsetname, fset in sorted(all_ss_fsets.items()):
_add_init(fset, all_ss_fsets, init_order, 0)`, stopping at the first raised
exception. -/
def resolveGo (m : DepMap) (items : List (String × List String))
    (order : List String) : List String × Option ResolveErr :=
  match items with
  | [] => (order, none)
  | (k, v) :: rest =>
    match addInit m k v order 0 with
    | (order2, some e) => (order2, some e)
    | (order2, none) => resolveGo m rest order2

/-- Init-order resolution: iterate `_add_init` over the sorted items starting
from an empty `init_order`. -/
def resolve (m : DepMap) : List String × Option ResolveErr :=
  resolveGo m (sortItems m) []

/-- The dependencies of `x` that matter to `_add_init`: members of `x`'s
dependency set whose name is present as a key of the mapping (absent names
are skipped by the `depfset is None: continue` branch). -/
def presentDeps (m : DepMap) (x : String) : List String :=
  match List.lookup x m with
  | none => []
  | some ds => (sortDedup ds).filter (fun d => (List.lookup d m).isSome)

/-- One edge of the dependency relation restricted to present keys:
`x` depends on `y`. -/
def Step (m : DepMap) (x y : String) : Prop := y ∈ presentDeps m x

/-- The mapping has no dependency cycle among present keys. -/
def Acyclic (m : DepMap) : Prop := ∀ n, ¬ Relation.TransGen (Step m) n n

/-- Distinct keys: the invariant of a Python dict. -/
def KeysNodup (m : DepMap) : Prop := (m.map Prod.fst).Nodup

/-- Every present dependency of a member of `l` is itself in `l`. -/
def DepsClosed (m : DepMap) (l : List String) : Prop :=
  ∀ x ∈ l, ∀ y ∈ presentDeps m x, y ∈ l

/-- The topological invariant of a partially built `init_order`: no
duplicates, and every member was appended only after all of its present
dependencies. -/
def Valid (m : DepMap) (l : List String) : Prop :=
  l.Nodup ∧ ∀ l₁ x l₂, l = l₁ ++ x :: l₂ → ∀ d ∈ presentDeps m x, d ∈ l₁

/-! ## Fuel-bounded interpreter for `_add_init`

A structurally recursive interpreter that gives up (returns `none`) when its
fuel runs out.  Termination of `_add_init` (claim about the well-founded
recursion) is expressed by showing this interpreter computes `addInit`
whenever the fuel exceeds `11 - depth`, the number of recursion levels the
`depth > 10` guard still allows. -/

/-- The dependency loop of the fuel-bounded interpreter, parameterized by
the interpretation `rec` of the recursive `_add_init` calls. -/
def addDepsFAux (m : DepMap)
    (rec : String → List String → List String → Nat →
      Option (List String × Option ResolveErr)) :
    List String → List String → Nat → Option (List String × Option ResolveErr)
  | [], order, _ => some (order, none)
  | dn :: rest, order, nd =>
    match List.lookup dn m with
    | none => addDepsFAux m rec rest order nd
    | some ddeps =>
      match rec dn ddeps order nd with
      | none => none
      | some (order2, some e) => some (order2, some e)
      | some (order2, none) => addDepsFAux m rec rest order2 nd

/-- Fuel-bounded `_add_init`: `none` means the fuel ran out before the
function returned or raised.  Structurally recursive on the fuel, so it
evaluates. -/
def addInitF (m : DepMap) : Nat → String → List String → List String → Nat →
    Option (List String × Option ResolveErr)
  | 0, _, _, _, _ => none
  | fuel + 1, name, deps, order, depth =>
    if depth > 10 then
      some (order, some (.depCycle name))
    else if name ∈ order then
      some (order, none)
    else
      match addDepsFAux m (addInitF m fuel) (sortDedup deps) order (depth + 1) with
      | none => none
      | some (order2, some e) => some (order2, some e)
      | some (order2, none) =>
        if name ∈ order2 then some (order2, some (.assertFail name))
        else some (order2 ++ [name], none)

/-- Fuel-bounded driver loop of the resolution, with fuel 12 for each
top-level `_add_init` call at depth 0. -/
def resolveGoF (m : DepMap) : List (String × List String) → List String →
    Option (List String × Option ResolveErr)
  | [], order => some (order, none)
  | (k, v) :: rest, order =>
    match addInitF m 12 k v order 0 with
    | none => none
    | some (order2, some e) => some (order2, some e)
    | some (order2, none) => resolveGoF m rest order2

/-- Fuel-bounded init-order resolution. -/
def resolveF (m : DepMap) : Option (List String × Option ResolveErr) :=
  resolveGoF m (sortItems m) []

/-! ## The generated-text assembly of `generate_app_module` -/

/-- The fields of `batools.featureset.FeatureSet` consumed by
`generate_app_module`.  The feature set's `name` is the key under which it is
stored in the `feature_sets` dict (a dict invariant of the caller), so it is
not duplicated here. -/
structure FeatureSet where
  has_python_app_subsystem : Bool
  name_python_package : String
  name_camel : String
  soft_requirements : List String
  allow_as_soft_requirement : Bool
  python_app_subsystem_dependencies : List String
  deriving Repr, DecidableEq

/-- `f'# This section generated by {__name__}; do not edit.'` with
`__name__ = 'batools.appmodule'`. -/
def infoLine : String := "# This section generated by batools.appmodule; do not edit."

/-- Errors of a `replace_section` call, modelled from the spec. -/
inductive MarkerErr where
  | markerNotFound
  | markerOrder
  deriving Repr, DecidableEq

/-- Split a document at the first line equal to `mk`: the lines strictly
before it and the lines strictly after it. -/
def splitAtFirst (d : List String) (mk : String) :
    Option (List String × List String) :=
  match d with
  | [] => none
  | x :: xs =>
    if x = mk then some ([], xs)
    else (splitAtFirst xs mk).map (fun p => (x :: p.1, p.2))

/-- Modelled from the spec: `efrotools.replace_section` is not part of this
repository, so the section rewrite is taken from §4.1 of the specification.
The document is an ordered sequence of lines; the first line equal to
`beginMarker` and the first line equal to `endMarker` after it delimit the
section; a missing marker is `MarkerNotFoundError`; an `endMarker` at or
before `beginMarker`, or zero lines between the markers, is
`MarkerOrderError`; otherwise the result is the lines before the begin
marker, the markers themselves if `keepMarkers`, the new content verbatim,
and the lines after the end marker. -/
def replaceSection (doc : List String) (beginMarker endMarker : String)
    (content : List String) (keepMarkers : Bool) :
    Except MarkerErr (List String) :=
  match splitAtFirst doc beginMarker with
  | none => .error .markerNotFound
  | some (before, rest) =>
    match splitAtFirst rest endMarker with
    | none =>
      if endMarker ∈ before ∨ endMarker = beginMarker then .error .markerOrder
      else .error .markerNotFound
    | some (mid, after) =>
      if mid = [] then .error .markerOrder
      else
        .ok (before ++ (if keepMarkers then [beginMarker] else [])
          ++ content ++ (if keepMarkers then [endMarker] else []) ++ after)

/-- Split a character stream into lines, each keeping its terminating
newline (Python `str.splitlines(keepends=True)` on `'\n'`-terminated
text). -/
def splitKeepEnds : List Char → List (List Char)
  | [] => []
  | c :: cs =>
    if c = '\n' then ['\n'] :: splitKeepEnds cs
    else
      match splitKeepEnds cs with
      | [] => [[c]]
      | l :: ls => (c :: l) :: ls

/-- Python `textwrap.indent(s, pre)`: prefix every line that contains a
non-whitespace character. -/
def textwrapIndent (pre s : String) : String :=
  String.mk (((splitKeepEnds s.data).map
    (fun l => if l.any (fun c => !c.isWhitespace) then pre.data ++ l else l)).flatten)

/-- View a generated content string as document lines for splicing. -/
def toLines (s : String) : List String :=
  (splitKeepEnds s.data).map String.mk

/-- The import lines for feature-set subsystems (lines 38-43). -/
def importsContents (fsets : List (String × FeatureSet)) : String :=
  (sortItems fsets).foldl
    (fun acc p =>
      if p.2.has_python_app_subsystem then
        acc ++ "from " ++ p.2.name_python_package ++ " import "
          ++ p.2.name_camel ++ "Subsystem\n"
      else acc) ""

/-- `missing_soft_fset_names`: names soft-required by a present feature set
but absent from the working set (lines 57-62); list membership is the set
membership. -/
def missingSoftNames (fsets : List (String × FeatureSet)) : List String :=
  fsets.flatMap
    (fun p => p.2.soft_requirements.filter (fun r => (List.lookup r fsets).isNone))

/-- The property emitted for a soft-required feature set that is absent from
the working set (lines 72-80). -/
def noneBlock (name : String) : String :=
  "\n@cached_property\ndef " ++ name ++ "(self) -> Any | None:\n    \"\"\"Our "
    ++ name ++ " subsystem (not available in this project).\"\"\"\n\n    return None\n"

/-- The property emitted for a present subsystem allowed as a soft
requirement (lines 94-111). -/
def softBlock (name modname classname : String) : String :=
  "\n@cached_property\ndef " ++ name ++ "(self) -> " ++ classname
    ++ " | None:\n    \"\"\"Our " ++ name
    ++ " subsystem (if available).\"\"\"\n    # pylint: disable=cyclic-import\n\n"
    ++ "    try:\n        from " ++ modname ++ " import " ++ classname
    ++ "\n\n        return " ++ classname ++ "()\n    except ImportError:\n"
    ++ "        return None\n    except Exception:\n"
    ++ "        logging.exception('Error importing " ++ modname
    ++ ".')\n        return None\n"

/-- The property emitted for a present subsystem not allowed as a soft
requirement (lines 113-124). -/
def hardBlock (name modname classname : String) : String :=
  "\n@cached_property\ndef " ++ name ++ "(self) -> " ++ classname
    ++ ":\n    \"\"\"Our " ++ name
    ++ " subsystem (always available).\"\"\"\n    # pylint: disable=cyclic-import\n\n"
    ++ "    from " ++ modname ++ " import " ++ classname
    ++ "\n\n    return " ++ classname ++ "()\n"

/-- The block appended for one name of `sorted(all_fset_names)`
(lines 69-124).  The `none` branch of the lookup is unreachable: a name that
is not missing is a key of `fsets`. -/
def propBlockFor (fsets : List (String × FeatureSet)) (n : String) : String :=
  if n ∈ missingSoftNames fsets then noneBlock n
  else
    match List.lookup n fsets with
    | none => ""
    | some f =>
      if f.has_python_app_subsystem then
        if f.allow_as_soft_requirement then
          softBlock n f.name_python_package (f.name_camel ++ "Subsystem")
        else hardBlock n f.name_python_package (f.name_camel ++ "Subsystem")
      else ""

/-- The subsystem-properties text: iterate `sorted(all_fset_names)` where
`all_fset_names = missing_soft_fset_names | fsets.keys()` (lines 64-124). -/
def propsContents (fsets : List (String × FeatureSet)) : String :=
  (sortDedup (missingSoftNames fsets ++ fsets.map Prod.fst)).foldl
    (fun acc n => acc ++ propBlockFor fsets n) ""

/-- `all_ss_fsets` restricted to the data the resolver reads: the dependency
mapping of the feature sets that have a Python app subsystem
(lines 135-139). -/
def allSS (fsets : List (String × FeatureSet)) : DepMap :=
  (fsets.filter (fun p => p.2.has_python_app_subsystem)).map
    (fun p => (p.1, p.2.python_app_subsystem_dependencies))

/-- The initialization-poke text for a resolved init order (lines 144-146). -/
def pokeContents (initOrder : List String) : String :=
  "# Poke these attrs to create all our subsystems.\n"
    ++ initOrder.foldl (fun acc n => acc ++ "_ = self." ++ n ++ "\n") ""

/-- The default app-mode-selection text (lines 157-180). -/
def modeContents (fsets : List (String × FeatureSet)) : String :=
  let c0 := "# Hmm; need to think about how we auto-construct this; how\n"
    ++ "# should we determine which app modes to check and in what\n# order?\n"
  let c1 := if (List.lookup "scene_v1" fsets).isSome
    then c0 ++ "import bascenev1\n\n" else c0
  let c2 := if (List.lookup "base" fsets).isSome
    then c1 ++ "import babase\n\n" else c1
  let c3 := if (List.lookup "scene_v1" fsets).isSome
    then c2 ++ "if bascenev1.SceneV1AppMode.can_handle_intent(intent):\n"
      ++ "    return bascenev1.SceneV1AppMode\n\n" else c2
  let c4 := if (List.lookup "base" fsets).isSome
    then c3 ++ "if babase.EmptyAppMode.can_handle_intent(intent):\n"
      ++ "    return babase.EmptyAppMode\n\n" else c3
  c4 ++ "raise RuntimeError(f'No handler found for intent {type(intent)}.')\n"

/-- The fully assembled first section content (lines 44-52). -/
def importsSectionText (fsets : List (String × FeatureSet)) : String :=
  let contents := importsContents fsets
  textwrapIndent "    "
    (if contents = "" then infoLine ++ "\n" else infoLine ++ "\n\n" ++ contents ++ "\n")

/-- The fully assembled second section content (lines 126-132). -/
def propsSectionText (fsets : List (String × FeatureSet)) : String :=
  textwrapIndent "    " (infoLine ++ "\n" ++ propsContents fsets ++ "\n")

/-- The fully assembled third section content (lines 144-154). -/
def createSectionText (initOrder : List String) : String :=
  textwrapIndent "        " (infoLine ++ "\n\n" ++ pokeContents initOrder ++ "\n")

/-- The fully assembled fourth section content (lines 182-189). -/
def modeSectionText (fsets : List (String × FeatureSet)) : String :=
  textwrapIndent "            " (infoLine ++ "\n\n" ++ modeContents fsets ++ "\n")

/-- Errors of a whole generation run: a propagated `RuntimeError` or
`AssertionError` from `_add_init`, or a marker failure of a rewrite. -/
inductive GenErr where
  | resolveErr (e : ResolveErr)
  | markerErr (e : MarkerErr)
  deriving Repr, DecidableEq

/-- `generate_app_module(feature_sets, existing_data)`, translated line by
line: the document is rewritten section by section, reassigning `out`, and
any raised error aborts the run. -/
def generateAppModule (fsets : List (String × FeatureSet))
    (existingData : List String) : Except GenErr (List String) :=
  match replaceSection existingData
      "    # __FEATURESET_APP_SUBSYSTEM_IMPORTS_BEGIN__\n"
      "    # __FEATURESET_APP_SUBSYSTEM_IMPORTS_END__\n"
      (toLines (importsSectionText fsets)) true with
  | .error e => .error (.markerErr e)
  | .ok out1 =>
    match replaceSection out1
        "    # __FEATURESET_APP_SUBSYSTEM_PROPERTIES_BEGIN__\n"
        "    # __FEATURESET_APP_SUBSYSTEM_PROPERTIES_END__\n"
        (toLines (propsSectionText fsets)) true with
    | .error e => .error (.markerErr e)
    | .ok out2 =>
      match resolve (allSS fsets) with
      | (_, some e) => .error (.resolveErr e)
      | (initOrder, none) =>
        match replaceSection out2
            "        # __FEATURESET_APP_SUBSYSTEM_CREATE_BEGIN__\n"
            "        # __FEATURESET_APP_SUBSYSTEM_CREATE_END__\n"
            (toLines (createSectionText initOrder)) true with
        | .error e => .error (.markerErr e)
        | .ok out3 =>
          match replaceSection out3
              "            # __DEFAULT_APP_MODE_SELECTION_BEGIN__\n"
              "            # __DEFAULT_APP_MODE_SELECTION_END__\n"
              (toLines (modeSectionText fsets)) true with
          | .error e => .error (.markerErr e)
          | .ok out4 => .ok out4

/-- Init-order resolution as a fallible operation, for use in the spec-side
pipeline. -/
def initOrderE (m : DepMap) : Except GenErr (List String) :=
  match resolve m with
  | (o, none) => .ok o
  | (_, some e) => .error (.resolveErr e)

/-- The spec's view of the control flow (§2): four independent pieces of
generated text fed through the section rewriter against the same document in
sequence, each rewrite's output becoming the next rewrite's input, every
rewrite keeping the markers, with the init-order resolver deciding the
iteration order of the initialization-poke text. -/
def appModulePipelineSpec (fsets : List (String × FeatureSet))
    (doc : List String) : Except GenErr (List String) :=
  Except.bind ((replaceSection doc
    "    # __FEATURESET_APP_SUBSYSTEM_IMPORTS_BEGIN__\n"
    "    # __FEATURESET_APP_SUBSYSTEM_IMPORTS_END__\n"
    (toLines (importsSectionText fsets)) true).mapError GenErr.markerErr)
    (fun d1 =>
  Except.bind ((replaceSection d1
    "    # __FEATURESET_APP_SUBSYSTEM_PROPERTIES_BEGIN__\n"
    "    # __FEATURESET_APP_SUBSYSTEM_PROPERTIES_END__\n"
    (toLines (propsSectionText fsets)) true).mapError GenErr.markerErr)
    (fun d2 =>
  Except.bind (initOrderE (allSS fsets)) (fun io =>
  Except.bind ((replaceSection d2
    "        # __FEATURESET_APP_SUBSYSTEM_CREATE_BEGIN__\n"
    "        # __FEATURESET_APP_SUBSYSTEM_CREATE_END__\n"
    (toLines (createSectionText io)) true).mapError GenErr.markerErr)
    (fun d3 =>
  (replaceSection d3
    "            # __DEFAULT_APP_MODE_SELECTION_BEGIN__\n"
    "            # __DEFAULT_APP_MODE_SELECTION_END__\n"
    (toLines (modeSectionText fsets)) true).mapError GenErr.markerErr))))

/-! ## Equation lemmas for `addInit` and `addDeps` -/

theorem addInit_gt {m : DepMap} {name : String} {deps order : List String}
    {depth : Nat} (h : depth > 10) :
    addInit m name deps order depth = (order, some (.depCycle name)) := by
  rw [addInit]; simp [h]

theorem addInit_of_mem {m : DepMap} {name : String} {deps order : List String}
    {depth : Nat} (h : ¬ depth > 10) (h2 : name ∈ order) :
    addInit m name deps order depth = (order, none) := by
  rw [addInit]; simp [h, h2]

theorem addInit_loop_err {m : DepMap} {name : String} {deps order order2 : List String}
    {depth : Nat} {e : ResolveErr} (h : ¬ depth > 10) (h2 : name ∉ order)
    (h3 : addDeps m (sortDedup deps) order (depth + 1) = (order2, some e)) :
    addInit m name deps order depth = (order2, some e) := by
  rw [addInit]; simp [h, h2, h3]

theorem addInit_loop_ok_mem {m : DepMap} {name : String}
    {deps order order2 : List String} {depth : Nat}
    (h : ¬ depth > 10) (h2 : name ∉ order)
    (h3 : addDeps m (sortDedup deps) order (depth + 1) = (order2, none))
    (h4 : name ∈ order2) :
    addInit m name deps order depth = (order2, some (.assertFail name)) := by
  rw [addInit]; simp [h, h2, h3, h4]

theorem addInit_loop_ok_app {m : DepMap} {name : String}
    {deps order order2 : List String} {depth : Nat}
    (h : ¬ depth > 10) (h2 : name ∉ order)
    (h3 : addDeps m (sortDedup deps) order (depth + 1) = (order2, none))
    (h4 : name ∉ order2) :
    addInit m name deps order depth = (order2 ++ [name], none) := by
  rw [addInit]; simp [h, h2, h3, h4]

theorem addDeps_nil {m : DepMap} {order : List String} {ndepth : Nat} :
    addDeps m [] order ndepth = (order, none) := by
  rw [addDeps]

theorem addDeps_cons_absent {m : DepMap} {dn : String} {rest order : List String}
    {ndepth : Nat} (h : List.lookup dn m = none) :
    addDeps m (dn :: rest) order ndepth = addDeps m rest order ndepth := by
  rw [addDeps]; simp [h]

theorem addDeps_cons_err {m : DepMap} {dn : String}
    {rest order order2 ddeps : List String} {ndepth : Nat} {e : ResolveErr}
    (h : List.lookup dn m = some ddeps)
    (h2 : addInit m dn ddeps order ndepth = (order2, some e)) :
    addDeps m (dn :: rest) order ndepth = (order2, some e) := by
  rw [addDeps]; simp [h, h2]

theorem addDeps_cons_ok {m : DepMap} {dn : String}
    {rest order order2 ddeps : List String} {ndepth : Nat}
    (h : List.lookup dn m = some ddeps)
    (h2 : addInit m dn ddeps order ndepth = (order2, none)) :
    addDeps m (dn :: rest) order ndepth = addDeps m rest order2 ndepth := by
  rw [addDeps]; simp [h, h2]

/-! ## Basic lemmas about `sortDedup`, `sortItems` and `List.lookup` -/

theorem mem_sortDedup {x : String} {l : List String} :
    x ∈ sortDedup l ↔ x ∈ l := by
  unfold sortDedup
  rw [(List.perm_insertionSort _ _).mem_iff, List.mem_dedup]

theorem sortDedup_sorted (l : List String) :
    (sortDedup l).Sorted pyLe :=
  List.sorted_insertionSort _ _

theorem sortDedup_nodup (l : List String) : (sortDedup l).Nodup :=
  (List.perm_insertionSort _ _).nodup_iff.mpr l.nodup_dedup

/-- Two sorted duplicate-free lists with the same members are equal. -/
theorem eq_of_sorted_of_mem_iff {l₁ l₂ : List String}
    (s₁ : l₁.Sorted pyLe) (s₂ : l₂.Sorted pyLe)
    (n₁ : l₁.Nodup) (n₂ : l₂.Nodup) (h : ∀ x, x ∈ l₁ ↔ x ∈ l₂) :
    l₁ = l₂ :=
  List.eq_of_perm_of_sorted ((List.perm_ext_iff_of_nodup n₁ n₂).mpr h) s₁ s₂

/-- `sorted(s)` canonically represents the set `s`: any two enumerations of
the same member set sort-dedup to the same list. -/
theorem sortDedup_eq_of_mem_iff {l₁ l₂ : List String}
    (h : ∀ x, x ∈ l₁ ↔ x ∈ l₂) : sortDedup l₁ = sortDedup l₂ :=
  eq_of_sorted_of_mem_iff (sortDedup_sorted l₁) (sortDedup_sorted l₂)
    (sortDedup_nodup l₁) (sortDedup_nodup l₂)
    (fun x => by rw [mem_sortDedup, mem_sortDedup]; exact h x)

theorem sortDedup_filter (p : String → Bool) (l : List String) :
    sortDedup (l.filter p) = (sortDedup l).filter (fun x => p x) := by
  refine eq_of_sorted_of_mem_iff (sortDedup_sorted _)
    (List.Pairwise.filter _ (sortDedup_sorted l)) (sortDedup_nodup _)
    ((sortDedup_nodup l).filter _) (fun x => ?_)
  rw [mem_sortDedup, List.mem_filter, List.mem_filter, mem_sortDedup]

theorem sortItems_perm {β : Type} (m : List (String × β)) :
    List.Perm (sortItems m) m :=
  List.perm_insertionSort _ _

theorem sortItems_sorted {β : Type} (m : List (String × β)) :
    (sortItems m).Pairwise keyLE :=
  List.sorted_insertionSort _ _

theorem lookup_isSome_iff {β : Type} [BEq β] {m : List (String × β)} {k : String} :
    (List.lookup k m).isSome ↔ k ∈ m.map Prod.fst := by
  induction m with
  | nil => simp [List.lookup]
  | cons p rest ih =>
    rw [List.lookup]
    by_cases h : k = p.1
    · simp [h]
    · have : (k == p.1) = false := by simp [h]
      simp [this, ih, h]

theorem lookup_eq_none_iff {β : Type} [BEq β] {m : List (String × β)} {k : String} :
    List.lookup k m = none ↔ k ∉ m.map Prod.fst := by
  rw [← lookup_isSome_iff (m := m) (k := k)]
  cases List.lookup k m <;> simp

theorem lookup_eq_of_mem {β : Type} [BEq β] {m : List (String × β)}
    {k : String} {v : β} (hnd : (m.map Prod.fst).Nodup) (hmem : (k, v) ∈ m) :
    List.lookup k m = some v := by
  induction m with
  | nil => simp at hmem
  | cons p rest ih =>
    rw [List.map_cons, List.nodup_cons] at hnd
    rw [List.lookup]
    rcases List.mem_cons.mp hmem with h | h
    · simp [← h]
    · have hk : k ≠ p.1 := by
        intro he
        exact hnd.1 (he ▸ (List.mem_map.mpr ⟨(k, v), h, rfl⟩))
      have : (k == p.1) = false := by simp [hk]
      rw [this]
      exact ih hnd.2 h

theorem mem_of_lookup_eq_some {β : Type} [BEq β] [LawfulBEq β]
    {m : List (String × β)} {k : String} {v : β}
    (h : List.lookup k m = some v) : (k, v) ∈ m := by
  induction m with
  | nil => simp [List.lookup] at h
  | cons p rest ih =>
    rw [List.lookup] at h
    by_cases he : k = p.1
    · rw [he] at h; simp at h
      refine List.mem_cons.mpr (Or.inl ?_)
      rw [he, ← h]
    · have : (k == p.1) = false := by simp [he]
      rw [this] at h
      exact List.mem_cons.mpr (Or.inr (ih h))

/-! ## Monotonicity and membership facts about the resolver -/

/-- A call of `_add_init` that returns normally leaves its feature set in
`init_order`. -/
theorem addInit_self_mem {m : DepMap} {name : String} {deps order t : List String}
    {depth : Nat} (h : addInit m name deps order depth = (t, none)) :
    name ∈ t := by
  by_cases h1 : depth > 10
  · rw [addInit_gt h1] at h
    simp at h
  · by_cases h2 : name ∈ order
    · rw [addInit_of_mem h1 h2] at h
      obtain ⟨rfl, -⟩ := Prod.mk.injEq .. ▸ h
      exact h2
    · rcases h3 : addDeps m (sortDedup deps) order (depth + 1) with ⟨order2, e?⟩
      cases e? with
      | some e =>
        rw [addInit_loop_err h1 h2 h3] at h
        simp at h
      | none =>
        by_cases h4 : name ∈ order2
        · rw [addInit_loop_ok_mem h1 h2 h3 h4] at h
          simp at h
        · rw [addInit_loop_ok_app h1 h2 h3 h4] at h
          obtain ⟨rfl, -⟩ := Prod.mk.injEq .. ▸ h
          simp

/-- `_add_init` and its dependency loop only ever append to `init_order`. -/
theorem addInit_addDeps_mono (m : DepMap) :
    (∀ name deps order depth, ∀ z ∈ order,
      z ∈ (addInit m name deps order depth).1) ∧
    (∀ names order ndepth, ∀ z ∈ order,
      z ∈ (addDeps m names order ndepth).1) := by
  refine addInit.mutual_induct m
    (fun name deps order depth =>
      ∀ z ∈ order, z ∈ (addInit m name deps order depth).1)
    (fun names order ndepth =>
      ∀ z ∈ order, z ∈ (addDeps m names order ndepth).1)
    ?_ ?_ ?_ ?_ ?_ ?_ ?_ ?_ ?_
  · intro name deps order depth h z hz
    rw [addInit_gt h]; exact hz
  · intro name deps order depth h h2 z hz
    rw [addInit_of_mem h h2]; exact hz
  · intro name deps order depth h h2 order2 e h3 ih z hz
    rw [addInit_loop_err h h2 h3]
    have := ih z hz; rw [h3] at this; exact this
  · intro name deps order depth h h2 order2 h3 h4 ih z hz
    rw [addInit_loop_ok_mem h h2 h3 h4]
    have := ih z hz; rw [h3] at this; exact this
  · intro name deps order depth h h2 order2 h3 h4 ih z hz
    rw [addInit_loop_ok_app h h2 h3 h4]
    have := ih z hz; rw [h3] at this
    exact List.mem_append.mpr (Or.inl this)
  · intro order ndepth z hz
    rw [addDeps_nil]; exact hz
  · intro order ndepth dn rest h ih z hz
    rw [addDeps_cons_absent h]; exact ih z hz
  · intro order ndepth dn rest ddeps h order2 e h2 ih z hz
    rw [addDeps_cons_err h h2]
    have := ih z hz; rw [h2] at this; exact this
  · intro order ndepth dn rest ddeps h order2 h2 ih ih2 z hz
    rw [addDeps_cons_ok h h2]
    have := ih z hz; rw [h2] at this
    exact ih2 z this

/-- When the dependency loop returns normally, every processed dependency
that is present as a key ends up in `init_order`. -/
theorem addDeps_none_mem {m : DepMap} {names order t : List String} {ndepth : Nat}
    (h : addDeps m names order ndepth = (t, none)) :
    ∀ x ∈ names, (List.lookup x m).isSome → x ∈ t := by
  induction names generalizing order with
  | nil => simp
  | cons dn rest ih =>
    intro x hx hpres
    rcases hl : List.lookup dn m with - | ddeps
    · rw [addDeps_cons_absent hl] at h
      rcases List.mem_cons.mp hx with rfl | hx'
      · rw [hl] at hpres; simp at hpres
      · exact ih h x hx' hpres
    · rcases h2 : addInit m dn ddeps order ndepth with ⟨order2, e?⟩
      cases e? with
      | some e =>
        rw [addDeps_cons_err hl h2] at h
        simp at h
      | none =>
        rw [addDeps_cons_ok hl h2] at h
        rcases List.mem_cons.mp hx with rfl | hx'
        · have hmem : x ∈ order2 := addInit_self_mem h2
          have := (addInit_addDeps_mono m).2 rest order2 ndepth x hmem
          rw [h] at this; exact this
        · exact ih h x hx' hpres

/-! ## Preservation of dependency closure, reachability, and the
topological invariant -/

theorem presentDeps_eq_some {m : DepMap} {x : String} {ds : List String}
    (h : List.lookup x m = some ds) :
    presentDeps m x = (sortDedup ds).filter (fun d => (List.lookup d m).isSome) := by
  rw [presentDeps, h]

theorem presentDeps_eq_none {m : DepMap} {x : String}
    (h : List.lookup x m = none) : presentDeps m x = [] := by
  rw [presentDeps, h]

/-- Dependency reachability along present keys. -/
def Reach (m : DepMap) : String → String → Prop :=
  Relation.ReflTransGen (Step m)

/-- `_add_init` preserves dependency closure of `init_order`, also on the
paths where an exception propagates. -/
theorem addInit_addDeps_depsClosed (m : DepMap) :
    (∀ name deps order depth, List.lookup name m = some deps →
      DepsClosed m order → DepsClosed m (addInit m name deps order depth).1) ∧
    (∀ names order ndepth,
      DepsClosed m order → DepsClosed m (addDeps m names order ndepth).1) := by
  refine addInit.mutual_induct m
    (fun name deps order depth => List.lookup name m = some deps →
      DepsClosed m order → DepsClosed m (addInit m name deps order depth).1)
    (fun names order ndepth =>
      DepsClosed m order → DepsClosed m (addDeps m names order ndepth).1)
    ?_ ?_ ?_ ?_ ?_ ?_ ?_ ?_ ?_
  · intro name deps order depth h hl hdc
    rw [addInit_gt h]; exact hdc
  · intro name deps order depth h h2 hl hdc
    rw [addInit_of_mem h h2]; exact hdc
  · intro name deps order depth h h2 order2 e h3 ih hl hdc
    rw [addInit_loop_err h h2 h3]
    have := ih hdc; rw [h3] at this; exact this
  · intro name deps order depth h h2 order2 h3 h4 ih hl hdc
    rw [addInit_loop_ok_mem h h2 h3 h4]
    have := ih hdc; rw [h3] at this; exact this
  · intro name deps order depth h h2 order2 h3 h4 ih hl hdc
    rw [addInit_loop_ok_app h h2 h3 h4]
    have hdc2 : DepsClosed m order2 := by
      have := ih hdc; rw [h3] at this; exact this
    intro x hx y hy
    rcases List.mem_append.mp hx with hx' | hx'
    · exact List.mem_append.mpr (Or.inl (hdc2 x hx' y hy))
    · have hxn : x = name := by simpa using hx'
      subst hxn
      rw [presentDeps_eq_some hl, List.mem_filter] at hy
      exact List.mem_append.mpr
        (Or.inl (addDeps_none_mem h3 y (mem_sortDedup.mpr (mem_sortDedup.mp hy.1)) hy.2))
  · intro order ndepth hdc
    rw [addDeps_nil]; exact hdc
  · intro order ndepth dn rest h ih hdc
    rw [addDeps_cons_absent h]; exact ih hdc
  · intro order ndepth dn rest ddeps h order2 e h2 ih hdc
    rw [addDeps_cons_err h h2]
    have := ih h hdc; rw [h2] at this; exact this
  · intro order ndepth dn rest ddeps h order2 h2 ih ih2 hdc
    rw [addDeps_cons_ok h h2]
    refine ih2 ?_
    have := ih h hdc; rw [h2] at this; exact this

/-- Every name in the order built by `_add_init` was either already there or
is dependency-reachable from the visited feature set. -/
theorem addInit_addDeps_reach (m : DepMap) :
    (∀ name deps order depth, List.lookup name m = some deps →
      ∀ z ∈ (addInit m name deps order depth).1, z ∈ order ∨ Reach m name z) ∧
    (∀ names order ndepth,
      ∀ z ∈ (addDeps m names order ndepth).1, z ∈ order ∨
        ∃ x ∈ names, (List.lookup x m).isSome ∧ Reach m x z) := by
  refine addInit.mutual_induct m
    (fun name deps order depth => List.lookup name m = some deps →
      ∀ z ∈ (addInit m name deps order depth).1, z ∈ order ∨ Reach m name z)
    (fun names order ndepth =>
      ∀ z ∈ (addDeps m names order ndepth).1, z ∈ order ∨
        ∃ x ∈ names, (List.lookup x m).isSome ∧ Reach m x z)
    ?_ ?_ ?_ ?_ ?_ ?_ ?_ ?_ ?_
  · intro name deps order depth h hl z hz
    rw [addInit_gt h] at hz; exact Or.inl hz
  · intro name deps order depth h h2 hl z hz
    rw [addInit_of_mem h h2] at hz; exact Or.inl hz
  · intro name deps order depth h h2 order2 e h3 ih hl z hz
    rw [addInit_loop_err h h2 h3] at hz
    have hz2 : z ∈ (addDeps m (sortDedup deps) order (depth + 1)).1 := by
      rw [h3]; exact hz
    rcases ih z hz2 with h' | ⟨x, hx, hpres, hr⟩
    · exact Or.inl h'
    · refine Or.inr (Relation.ReflTransGen.head ?_ hr)
      rw [Step, presentDeps_eq_some hl, List.mem_filter]
      exact ⟨hx, hpres⟩
  · intro name deps order depth h h2 order2 h3 h4 ih hl z hz
    rw [addInit_loop_ok_mem h h2 h3 h4] at hz
    have hz2 : z ∈ (addDeps m (sortDedup deps) order (depth + 1)).1 := by
      rw [h3]; exact hz
    rcases ih z hz2 with h' | ⟨x, hx, hpres, hr⟩
    · exact Or.inl h'
    · refine Or.inr (Relation.ReflTransGen.head ?_ hr)
      rw [Step, presentDeps_eq_some hl, List.mem_filter]
      exact ⟨hx, hpres⟩
  · intro name deps order depth h h2 order2 h3 h4 ih hl z hz
    rw [addInit_loop_ok_app h h2 h3 h4] at hz
    rcases List.mem_append.mp hz with hz' | hz'
    · have hz2 : z ∈ (addDeps m (sortDedup deps) order (depth + 1)).1 := by
        rw [h3]; exact hz'
      rcases ih z hz2 with h' | ⟨x, hx, hpres, hr⟩
      · exact Or.inl h'
      · refine Or.inr (Relation.ReflTransGen.head ?_ hr)
        rw [Step, presentDeps_eq_some hl, List.mem_filter]
        exact ⟨hx, hpres⟩
    · have : z = name := by simpa using hz'
      subst this
      exact Or.inr Relation.ReflTransGen.refl
  · intro order ndepth z hz
    rw [addDeps_nil] at hz; exact Or.inl hz
  · intro order ndepth dn rest h ih z hz
    rw [addDeps_cons_absent h] at hz
    rcases ih z hz with h' | ⟨x, hx, hpres, hr⟩
    · exact Or.inl h'
    · exact Or.inr ⟨x, List.mem_cons.mpr (Or.inr hx), hpres, hr⟩
  · intro order ndepth dn rest ddeps h order2 e h2 ih z hz
    rw [addDeps_cons_err h h2] at hz
    have hz2 : z ∈ (addInit m dn ddeps order ndepth).1 := by
      rw [h2]; exact hz
    rcases ih h z hz2 with h' | hr
    · exact Or.inl h'
    · exact Or.inr ⟨dn, List.mem_cons.mpr (Or.inl rfl), by rw [h]; rfl, hr⟩
  · intro order ndepth dn rest ddeps h order2 h2 ih ih2 z hz
    rw [addDeps_cons_ok h h2] at hz
    rcases ih2 z hz with h' | ⟨x, hx, hpres, hr⟩
    · have hz2 : z ∈ (addInit m dn ddeps order ndepth).1 := by
        rw [h2]; exact h'
      rcases ih h z hz2 with h'' | hr
      · exact Or.inl h''
      · exact Or.inr ⟨dn, List.mem_cons.mpr (Or.inl rfl), by rw [h]; rfl, hr⟩
    · exact Or.inr ⟨x, List.mem_cons.mpr (Or.inr hx), hpres, hr⟩

/-- `_add_init` preserves the topological invariant of `init_order`, also on
the paths where an exception propagates. -/
theorem addInit_addDeps_valid (m : DepMap) :
    (∀ name deps order depth, List.lookup name m = some deps →
      Valid m order → Valid m (addInit m name deps order depth).1) ∧
    (∀ names order ndepth,
      Valid m order → Valid m (addDeps m names order ndepth).1) := by
  refine addInit.mutual_induct m
    (fun name deps order depth => List.lookup name m = some deps →
      Valid m order → Valid m (addInit m name deps order depth).1)
    (fun names order ndepth =>
      Valid m order → Valid m (addDeps m names order ndepth).1)
    ?_ ?_ ?_ ?_ ?_ ?_ ?_ ?_ ?_
  · intro name deps order depth h hl hv
    rw [addInit_gt h]; exact hv
  · intro name deps order depth h h2 hl hv
    rw [addInit_of_mem h h2]; exact hv
  · intro name deps order depth h h2 order2 e h3 ih hl hv
    rw [addInit_loop_err h h2 h3]
    have := ih hv; rw [h3] at this; exact this
  · intro name deps order depth h h2 order2 h3 h4 ih hl hv
    rw [addInit_loop_ok_mem h h2 h3 h4]
    have := ih hv; rw [h3] at this; exact this
  · intro name deps order depth h h2 order2 h3 h4 ih hl hv
    rw [addInit_loop_ok_app h h2 h3 h4]
    have hv2 : Valid m order2 := by
      have := ih hv; rw [h3] at this; exact this
    show Valid m (order2 ++ [name])
    constructor
    · rw [List.nodup_append]
      exact ⟨hv2.1, List.nodup_singleton name, by simpa using h4⟩
    · intro l₁ x l₂ heq d hd
      rcases List.eq_nil_or_concat l₂ with rfl | ⟨l₂', a, rfl⟩
      · obtain ⟨h6, h7⟩ := List.append_inj' heq rfl
        have hxname : x = name := by
          have := h7.symm; simpa using this
        subst hxname
        rw [← h6]
        rw [presentDeps_eq_some hl, List.mem_filter] at hd
        exact addDeps_none_mem h3 d hd.1 hd.2
      · rw [List.concat_eq_append] at heq
        have h5 : order2 ++ [name] = (l₁ ++ x :: l₂') ++ [a] := by
          rw [heq]; simp
        obtain ⟨h6, h7⟩ := List.append_inj' h5 rfl
        exact hv2.2 l₁ x l₂' h6 d hd
  · intro order ndepth hv
    rw [addDeps_nil]; exact hv
  · intro order ndepth dn rest h ih hv
    rw [addDeps_cons_absent h]; exact ih hv
  · intro order ndepth dn rest ddeps h order2 e h2 ih hv
    rw [addDeps_cons_err h h2]
    have := ih h hv; rw [h2] at this; exact this
  · intro order ndepth dn rest ddeps h order2 h2 ih ih2 hv
    rw [addDeps_cons_ok h h2]
    refine ih2 ?_
    have := ih h hv; rw [h2] at this; exact this

/-! ## Cycles force the depth bound: `_add_init` cannot complete a feature
set that lies on a dependency cycle -/

/-- The element following the first occurrence of `c` in a path. -/
def pathNext : List String → String → String
  | [], c => c
  | [_], c => c
  | x :: y :: rest, c => if c = x then y else pathNext (y :: rest) c

theorem pathNext_mem (c : String) :
    ∀ (path : List String), c ∈ path.dropLast → pathNext path c ∈ path := by
  intro path
  induction path with
  | nil => simp
  | cons x rest ih =>
    cases rest with
    | nil => simp
    | cons y rest2 =>
      intro hc
      rw [List.dropLast_cons₂] at hc
      rw [pathNext]
      by_cases hcx : c = x
      · simp [hcx]
      · rw [if_neg hcx]
        have hc2 : c ∈ (y :: rest2).dropLast := by
          rcases List.mem_cons.mp hc with h | h
          · exact absurd h hcx
          · exact h
        exact List.mem_cons.mpr (Or.inr (ih hc2))

theorem pathNext_step {m : DepMap} (c : String) :
    ∀ (path : List String), List.Chain' (Step m) path → c ∈ path.dropLast →
      Step m c (pathNext path c) := by
  intro path
  induction path with
  | nil => simp
  | cons x rest ih =>
    cases rest with
    | nil => simp
    | cons y rest2 =>
      intro hch hc
      rw [List.chain'_cons] at hch
      rw [List.dropLast_cons₂] at hc
      rw [pathNext]
      by_cases hcx : c = x
      · rw [if_pos hcx, hcx]; exact hch.1
      · rw [if_neg hcx]
        refine ih hch.2 ?_
        rcases List.mem_cons.mp hc with h | h
        · exact absurd h hcx
        · exact h

theorem reach_getLast {m : DepMap} :
    ∀ (path : List String) (h : path ≠ []), List.Chain' (Step m) path →
      ∀ c ∈ path, Reach m c (path.getLast h) := by
  intro path
  induction path with
  | nil => intro h; exact absurd rfl h
  | cons x rest ih =>
    intro h hch c hc
    cases rest with
    | nil =>
      have hcx : c = x := by simpa using hc
      subst hcx
      rw [List.getLast_singleton]
      exact Relation.ReflTransGen.refl
    | cons y rest2 =>
      rw [List.chain'_cons] at hch
      rw [List.getLast_cons (List.cons_ne_nil y rest2)]
      rcases List.mem_cons.mp hc with rfl | hc2
      · exact Relation.ReflTransGen.head hch.1
          (ih (List.cons_ne_nil y rest2) hch.2 y (List.mem_cons_self y rest2))
      · exact ih (List.cons_ne_nil y rest2) hch.2 c hc2

/-- Any feature set on a dependency cycle yields a finite set of names,
closed under a successor map along present dependencies, whose members all
reach the feature set. -/
theorem exists_cycle_data {m : DepMap} {n : String}
    (h : Relation.TransGen (Step m) n n) :
    ∃ (C : List String) (σ : String → String), n ∈ C ∧
      (∀ c ∈ C, σ c ∈ C ∧ σ c ∈ presentDeps m c) ∧
      (∀ c ∈ C, Reach m c n) := by
  obtain ⟨b, hnb, hbn⟩ := Relation.TransGen.head'_iff.mp h
  obtain ⟨l, hchain, hlast⟩ := List.exists_chain_of_relationReflTransGen hbn
  have hch' : List.Chain' (Step m) (n :: b :: l) := List.Chain.cons hnb hchain
  have hne : (n :: b :: l) ≠ [] := List.cons_ne_nil _ _
  have hlast' : (n :: b :: l).getLast hne = n := by
    rw [List.getLast_cons (List.cons_ne_nil b l)]
    exact hlast
  have hnC : n ∈ (n :: b :: l).dropLast := by
    rw [List.dropLast_cons₂]
    exact List.mem_cons_self _ _
  refine ⟨(n :: b :: l).dropLast, pathNext (n :: b :: l), hnC, ?_, ?_⟩
  · intro c hc
    refine ⟨?_, pathNext_step c _ hch' hc⟩
    have hmem : pathNext (n :: b :: l) c ∈
        (n :: b :: l).dropLast ++ [(n :: b :: l).getLast hne] := by
      rw [List.dropLast_append_getLast hne]
      exact pathNext_mem c _ hc
    rcases List.mem_append.mp hmem with h' | h'
    · exact h'
    · have h'' : pathNext (n :: b :: l) c = (n :: b :: l).getLast hne := by
        simpa using h'
      rw [hlast'] at h''
      rw [h'']; exact hnC
  · intro c hc
    have hcp : c ∈ (n :: b :: l) := by
      have : (n :: b :: l).dropLast ++ [(n :: b :: l).getLast hne] = n :: b :: l :=
        List.dropLast_append_getLast hne
      rw [← this]
      exact List.mem_append.mpr (Or.inl hc)
    have := reach_getLast _ hne hch' c hcp
    rw [hlast'] at this
    exact this

/-- Under a dependency cycle `C` none of whose members is in `init_order`,
visiting a member of `C` always raises, and any normally returning call
keeps every member of `C` out of `init_order`. -/
theorem addInit_addDeps_cycle (m : DepMap) (C : List String)
    (σ : String → String)
    (hC : ∀ c ∈ C, σ c ∈ C ∧ σ c ∈ presentDeps m c) :
    (∀ name deps order depth, List.lookup name m = some deps →
      (∀ c ∈ C, c ∉ order) →
      ((name ∈ C → ((addInit m name deps order depth).2).isSome) ∧
       ((addInit m name deps order depth).2 = none →
         ∀ c ∈ C, c ∉ (addInit m name deps order depth).1))) ∧
    (∀ names order ndepth, (∀ c ∈ C, c ∉ order) →
      (((∃ x ∈ names, x ∈ C) → ((addDeps m names order ndepth).2).isSome) ∧
       ((addDeps m names order ndepth).2 = none →
         ∀ c ∈ C, c ∉ (addDeps m names order ndepth).1))) := by
  refine addInit.mutual_induct m
    (fun name deps order depth => List.lookup name m = some deps →
      (∀ c ∈ C, c ∉ order) →
      ((name ∈ C → ((addInit m name deps order depth).2).isSome) ∧
       ((addInit m name deps order depth).2 = none →
         ∀ c ∈ C, c ∉ (addInit m name deps order depth).1)))
    (fun names order ndepth => (∀ c ∈ C, c ∉ order) →
      (((∃ x ∈ names, x ∈ C) → ((addDeps m names order ndepth).2).isSome) ∧
       ((addDeps m names order ndepth).2 = none →
         ∀ c ∈ C, c ∉ (addDeps m names order ndepth).1)))
    ?_ ?_ ?_ ?_ ?_ ?_ ?_ ?_ ?_
  · intro name deps order depth h hl hfree
    rw [addInit_gt h]
    exact ⟨fun _ => rfl, fun hnone => by simp at hnone⟩
  · intro name deps order depth h h2 hl hfree
    rw [addInit_of_mem h h2]
    exact ⟨fun hnC => absurd h2 (hfree name hnC), fun _ => hfree⟩
  · intro name deps order depth h h2 order2 e h3 ih hl hfree
    rw [addInit_loop_err h h2 h3]
    exact ⟨fun _ => rfl, fun hnone => by simp at hnone⟩
  · intro name deps order depth h h2 order2 h3 h4 ih hl hfree
    rw [addInit_loop_ok_mem h h2 h3 h4]
    exact ⟨fun _ => rfl, fun hnone => by simp at hnone⟩
  · intro name deps order depth h h2 order2 h3 h4 ih hl hfree
    rw [addInit_loop_ok_app h h2 h3 h4]
    have hIH := ih hfree
    have hnotex : ¬ ∃ x ∈ sortDedup deps, x ∈ C := by
      intro hex
      have := hIH.1 hex
      rw [h3] at this
      simp at this
    have hnameC : name ∉ C := by
      intro hnC
      obtain ⟨hσC, hσdep⟩ := hC name hnC
      rw [presentDeps_eq_some hl, List.mem_filter] at hσdep
      exact hnotex ⟨σ name, hσdep.1, hσC⟩
    have hfree2 : ∀ c ∈ C, c ∉ order2 := by
      have := hIH.2 (by rw [h3])
      rw [h3] at this
      exact this
    refine ⟨fun hnC => absurd hnC hnameC, fun _ => ?_⟩
    intro c hc
    simp only [List.mem_append, List.mem_singleton]
    push_neg
    exact ⟨hfree2 c hc, fun he => hnameC (he ▸ hc)⟩
  · intro order ndepth hfree
    rw [addDeps_nil]
    exact ⟨fun hex => by simp at hex, fun _ => hfree⟩
  · intro order ndepth dn rest h ih hfree
    rw [addDeps_cons_absent h]
    have hIH := ih hfree
    have hdnC : dn ∉ C := by
      intro hdn
      obtain ⟨-, hσdep⟩ := hC dn hdn
      rw [presentDeps_eq_none h] at hσdep
      simp at hσdep
    refine ⟨fun hex => ?_, hIH.2⟩
    obtain ⟨x, hx, hxC⟩ := hex
    rcases List.mem_cons.mp hx with rfl | hx'
    · exact absurd hxC hdnC
    · exact hIH.1 ⟨x, hx', hxC⟩
  · intro order ndepth dn rest ddeps h order2 e h2 ih hfree
    rw [addDeps_cons_err h h2]
    exact ⟨fun _ => rfl, fun hnone => by simp at hnone⟩
  · intro order ndepth dn rest ddeps h order2 h2 ih ih2 hfree
    have hM1 := ih h hfree
    have hdnC : dn ∉ C := by
      intro hdn
      have := hM1.1 hdn
      rw [h2] at this
      simp at this
    have hfree2 : ∀ c ∈ C, c ∉ order2 := by
      have := hM1.2 (by rw [h2])
      rw [h2] at this
      exact this
    rw [addDeps_cons_ok h h2]
    have hIH2 := ih2 hfree2
    refine ⟨fun hex => ?_, hIH2.2⟩
    obtain ⟨x, hx, hxC⟩ := hex
    rcases List.mem_cons.mp hx with rfl | hx'
    · exact absurd hxC hdnC
    · exact hIH2.1 ⟨x, hx', hxC⟩

/-! ## The assertion in `_add_init` never fires -/

/-- A dependency-closed `init_order` is closed under reachability. -/
theorem reach_closed {m : DepMap} {s : List String} (hdc : DepsClosed m s)
    {c y : String} (hr : Reach m c y) (hc : c ∈ s) : y ∈ s := by
  induction hr with
  | refl => exact hc
  | tail h1 h2 ih => exact hdc _ ih _ h2

/-- Starting from a dependency-closed `init_order`, neither `_add_init` nor
its dependency loop can raise `AssertionError`: the only way the visited
feature set could have entered `init_order` during the dependency loop is
through a dependency cycle, and a cycle exhausts the depth bound first. -/
theorem addInit_addDeps_noAssert (m : DepMap) :
    (∀ name deps order depth, List.lookup name m = some deps →
      DepsClosed m order →
      ∀ w, (addInit m name deps order depth).2 ≠ some (.assertFail w)) ∧
    (∀ names order ndepth, DepsClosed m order →
      ∀ w, (addDeps m names order ndepth).2 ≠ some (.assertFail w)) := by
  refine addInit.mutual_induct m
    (fun name deps order depth => List.lookup name m = some deps →
      DepsClosed m order →
      ∀ w, (addInit m name deps order depth).2 ≠ some (.assertFail w))
    (fun names order ndepth => DepsClosed m order →
      ∀ w, (addDeps m names order ndepth).2 ≠ some (.assertFail w))
    ?_ ?_ ?_ ?_ ?_ ?_ ?_ ?_ ?_
  · intro name deps order depth h hl hdc w
    rw [addInit_gt h]
    simp
  · intro name deps order depth h h2 hl hdc w
    rw [addInit_of_mem h h2]
    simp
  · intro name deps order depth h h2 order2 e h3 ih hl hdc w
    rw [addInit_loop_err h h2 h3]
    intro heq
    refine ih hdc w ?_
    rw [h3]
    exact heq
  · intro name deps order depth h h2 order2 h3 h4 ih hl hdc w
    exfalso
    have hmem : name ∈ (addDeps m (sortDedup deps) order (depth + 1)).1 := by
      rw [h3]; exact h4
    rcases (addInit_addDeps_reach m).2 (sortDedup deps) order (depth + 1)
        name hmem with h' | ⟨x, hx, hpres, hreach⟩
    · exact h2 h'
    · have hstep : Step m name x := by
        rw [Step, presentDeps_eq_some hl, List.mem_filter]
        exact ⟨hx, hpres⟩
      obtain ⟨C, σ, hnC, hCd, hCreach⟩ :=
        exists_cycle_data (Relation.TransGen.head' hstep hreach)
      have hfree : ∀ c ∈ C, c ∉ order := by
        intro c hc hcmem
        exact h2 (reach_closed hdc (hCreach c hc) hcmem)
      have hstuck :=
        ((addInit_addDeps_cycle m C σ hCd).2 (sortDedup deps) order
          (depth + 1) hfree).2 (by rw [h3])
      rw [h3] at hstuck
      exact hstuck name hnC h4
  · intro name deps order depth h h2 order2 h3 h4 ih hl hdc w
    rw [addInit_loop_ok_app h h2 h3 h4]
    simp
  · intro order ndepth hdc w
    rw [addDeps_nil]
    simp
  · intro order ndepth dn rest h ih hdc w
    rw [addDeps_cons_absent h]
    exact ih hdc w
  · intro order ndepth dn rest ddeps h order2 e h2 ih hdc w
    rw [addDeps_cons_err h h2]
    intro heq
    refine ih h hdc w ?_
    rw [h2]
    exact heq
  · intro order ndepth dn rest ddeps h order2 h2 ih ih2 hdc w
    rw [addDeps_cons_ok h h2]
    have hdc2 : DepsClosed m order2 := by
      have := (addInit_addDeps_depsClosed m).1 dn ddeps order ndepth h hdc
      rw [h2] at this
      exact this
    exact ih2 hdc2 w

/-! ## Lifting the invariants to `resolve` -/

theorem resolveGo_nil {m : DepMap} {order : List String} :
    resolveGo m [] order = (order, none) := by
  rw [resolveGo]

theorem resolveGo_cons_err {m : DepMap} {k : String} {v order order2 : List String}
    {rest : List (String × List String)} {e : ResolveErr}
    (h : addInit m k v order 0 = (order2, some e)) :
    resolveGo m ((k, v) :: rest) order = (order2, some e) := by
  rw [resolveGo]; simp [h]

theorem resolveGo_cons_ok {m : DepMap} {k : String} {v order order2 : List String}
    {rest : List (String × List String)}
    (h : addInit m k v order 0 = (order2, none)) :
    resolveGo m ((k, v) :: rest) order = resolveGo m rest order2 := by
  rw [resolveGo]; simp [h]

theorem resolveGo_valid {m : DepMap} (hnd : KeysNodup m) :
    ∀ (items : List (String × List String)) (order : List String),
      (∀ p ∈ items, p ∈ m) → Valid m order → Valid m (resolveGo m items order).1 := by
  intro items
  induction items with
  | nil => intro order _ hv; rw [resolveGo_nil]; exact hv
  | cons p rest ih =>
    intro order hsub hv
    obtain ⟨k, v⟩ := p
    have hlk : List.lookup k m = some v :=
      lookup_eq_of_mem hnd (hsub (k, v) (List.mem_cons_self _ _))
    rcases h2 : addInit m k v order 0 with ⟨order2, e?⟩
    have hval2 : Valid m order2 := by
      have := (addInit_addDeps_valid m).1 k v order 0 hlk hv
      rw [h2] at this
      exact this
    cases e? with
    | some e => rw [resolveGo_cons_err h2]; exact hval2
    | none =>
      rw [resolveGo_cons_ok h2]
      exact ih order2 (fun q hq => hsub q (List.mem_cons.mpr (Or.inr hq))) hval2

theorem valid_nil (m : DepMap) : Valid m [] :=
  ⟨List.nodup_nil, fun l₁ x l₂ heq => by simp at heq⟩

theorem depsClosed_of_valid {m : DepMap} {l : List String} (h : Valid m l) :
    DepsClosed m l := by
  intro x hx y hy
  obtain ⟨l₁, l₂, rfl⟩ := List.append_of_mem hx
  exact List.mem_append.mpr (Or.inl (h.2 l₁ x l₂ rfl y hy))

/-- The final `init_order` of a resolution run satisfies the topological
invariant, also when the run raised. -/
theorem resolve_valid {m : DepMap} (hnd : KeysNodup m) :
    Valid m (resolve m).1 := by
  rw [resolve]
  exact resolveGo_valid hnd (sortItems m) []
    (fun p hp => (sortItems_perm m).mem_iff.mp hp) (valid_nil m)

theorem resolveGo_noAssert {m : DepMap} (hnd : KeysNodup m) :
    ∀ (items : List (String × List String)) (order : List String),
      (∀ p ∈ items, p ∈ m) → Valid m order →
      ∀ w, (resolveGo m items order).2 ≠ some (.assertFail w) := by
  intro items
  induction items with
  | nil => intro order _ _ w; rw [resolveGo_nil]; simp
  | cons p rest ih =>
    intro order hsub hv w
    obtain ⟨k, v⟩ := p
    have hlk : List.lookup k m = some v :=
      lookup_eq_of_mem hnd (hsub (k, v) (List.mem_cons_self _ _))
    rcases h2 : addInit m k v order 0 with ⟨order2, e?⟩
    cases e? with
    | some e =>
      rw [resolveGo_cons_err h2]
      intro heq
      refine (addInit_addDeps_noAssert m).1 k v order 0 hlk
        (depsClosed_of_valid hv) w ?_
      rw [h2]
      exact heq
    | none =>
      rw [resolveGo_cons_ok h2]
      have hval2 : Valid m order2 := by
        have := (addInit_addDeps_valid m).1 k v order 0 hlk hv
        rw [h2] at this
        exact this
      exact ih order2 (fun q hq => hsub q (List.mem_cons.mpr (Or.inr hq))) hval2 w

/-- A resolution run never raises `AssertionError`. -/
theorem resolve_noAssert {m : DepMap} (hnd : KeysNodup m) :
    ∀ w, (resolve m).2 ≠ some (.assertFail w) := by
  rw [resolve]
  exact resolveGo_noAssert hnd (sortItems m) []
    (fun p hp => (sortItems_perm m).mem_iff.mp hp) (valid_nil m)

theorem resolveGo_cycle_err {m : DepMap} {C : List String} {σ : String → String}
    (hC : ∀ c ∈ C, σ c ∈ C ∧ σ c ∈ presentDeps m c) (hnd : KeysNodup m) :
    ∀ (items : List (String × List String)) (order : List String),
      (∀ p ∈ items, p ∈ m) → (∀ c ∈ C, c ∉ order) →
      (∃ x ∈ C, x ∈ items.map Prod.fst) →
      ((resolveGo m items order).2).isSome := by
  intro items
  induction items with
  | nil => intro order _ _ hex; simp at hex
  | cons p rest ih =>
    intro order hsub hfree hex
    obtain ⟨k, v⟩ := p
    have hlk : List.lookup k m = some v :=
      lookup_eq_of_mem hnd (hsub (k, v) (List.mem_cons_self _ _))
    rcases h2 : addInit m k v order 0 with ⟨order2, e?⟩
    cases e? with
    | some e => rw [resolveGo_cons_err h2]; rfl
    | none =>
      rw [resolveGo_cons_ok h2]
      have hcyc := (addInit_addDeps_cycle m C σ hC).1 k v order 0 hlk hfree
      have hkC : k ∉ C := by
        intro hk
        have := hcyc.1 hk
        rw [h2] at this
        simp at this
      have hfree2 : ∀ c ∈ C, c ∉ order2 := by
        have := hcyc.2 (by rw [h2])
        rw [h2] at this
        exact this
      obtain ⟨x, hxC, hxk⟩ := hex
      have hxk' : x = k ∨ ∃ y, (x, y) ∈ rest := by simpa using hxk
      rcases hxk' with rfl | ⟨y, hy⟩
      · exact absurd hxC hkC
      · exact ih order2 (fun q hq => hsub q (List.mem_cons.mpr (Or.inr hq))) hfree2
          ⟨x, hxC, List.mem_map.mpr ⟨(x, y), hy, rfl⟩⟩

/-- A two-element dependency cycle among present keys makes the whole
resolution raise the dependency-cycle `RuntimeError`. -/
theorem resolve_two_cycle_err {m : DepMap} {a b : String} (hnd : KeysNodup m)
    (hab : b ∈ presentDeps m a) (hba : a ∈ presentDeps m b) :
    ∃ w, (resolve m).2 = some (.depCycle w) := by
  have hC : ∀ c ∈ [a, b], (fun c => if c = a then b else a) c ∈ [a, b] ∧
      (fun c => if c = a then b else a) c ∈ presentDeps m c := by
    intro c hc
    rcases List.mem_cons.mp hc with rfl | hc'
    · simp [hab]
    · have hcb : c = b := by simpa using hc'
      subst hcb
      by_cases hba' : c = a
      · constructor
        · simp [hba']
        · simp only [hba', if_pos rfl]
          exact hba' ▸ hab
      · simp [hba', hba]
  have haKey : (List.lookup a m).isSome := by
    rw [presentDeps] at hba
    rcases hl : List.lookup b m with - | ds
    · rw [hl] at hba; simp at hba
    · rw [hl] at hba
      exact (List.mem_filter.mp hba).2
  have haItems : a ∈ (sortItems m).map Prod.fst := by
    have : a ∈ m.map Prod.fst := lookup_isSome_iff.mp haKey
    have hperm := (sortItems_perm m).map Prod.fst
    exact hperm.mem_iff.mpr this
  have hsome : ((resolve m).2).isSome := by
    rw [resolve]
    exact resolveGo_cycle_err hC hnd (sortItems m) []
      (fun p hp => (sortItems_perm m).mem_iff.mp hp) (by simp)
      ⟨a, List.mem_cons_self _ _, haItems⟩
  rcases he : (resolve m).2 with - | e
  · rw [he] at hsome; simp at hsome
  · cases e with
    | depCycle w => exact ⟨w, rfl⟩
    | assertFail w => exact absurd he (resolve_noAssert hnd w)

/-! ## The fuel-bounded interpreter computes `_add_init` -/

/-- With more fuel than the `depth > 10` guard can consume, the fuel-bounded
interpreter never runs out: `_add_init` terminates on every input, because
every recursive call increases `depth` by one and any call with
`depth > 10` returns at once. -/
theorem addInitF_eq (m : DepMap) : ∀ (fuel : Nat) (name : String)
    (deps order : List String) (depth : Nat), 11 - depth < fuel →
    addInitF m fuel name deps order depth =
      some (addInit m name deps order depth) := by
  intro fuel
  induction fuel with
  | zero =>
    intro name deps order depth h
    exact absurd h (Nat.not_lt_zero _)
  | succ fuel ih =>
    intro name deps order depth h
    rw [addInitF]
    by_cases h1 : depth > 10
    · rw [addInit_gt h1, if_pos h1]
    · rw [if_neg h1]
      by_cases h2 : name ∈ order
      · rw [addInit_of_mem h1 h2, if_pos h2]
      · rw [if_neg h2]
        have hloop : ∀ (L o : List String),
            addDepsFAux m (addInitF m fuel) L o (depth + 1) =
              some (addDeps m L o (depth + 1)) := by
          intro L
          induction L with
          | nil => intro o; rw [addDepsFAux, addDeps_nil]
          | cons dn rest ihL =>
            intro o
            rcases hl : List.lookup dn m with - | dds
            · rw [addDeps_cons_absent hl]
              simp only [addDepsFAux, hl]
              exact ihL o
            · have hsub := ih dn dds o (depth + 1) (by omega)
              simp only [addDepsFAux, hl, hsub]
              rcases hres : addInit m dn dds o (depth + 1) with ⟨o2, e?⟩
              cases e? with
              | some e => rw [addDeps_cons_err hl hres]
              | none => rw [addDeps_cons_ok hl hres]; exact ihL o2
        rw [hloop (sortDedup deps) order]
        rcases hres : addDeps m (sortDedup deps) order (depth + 1) with ⟨o2, e?⟩
        cases e? with
        | some e => rw [addInit_loop_err h1 h2 hres]
        | none =>
          by_cases h4 : name ∈ o2
          · rw [addInit_loop_ok_mem h1 h2 hres h4]
            show (if name ∈ o2 then some (o2, some (ResolveErr.assertFail name))
              else some (o2 ++ [name], none)) =
                some (o2, some (ResolveErr.assertFail name))
            rw [if_pos h4]
          · rw [addInit_loop_ok_app h1 h2 hres h4]
            show (if name ∈ o2 then some (o2, some (ResolveErr.assertFail name))
              else some (o2 ++ [name], none)) = some (o2 ++ [name], none)
            rw [if_neg h4]

/-- The fuel-bounded resolution always computes the resolution. -/
theorem resolveF_eq (m : DepMap) : resolveF m = some (resolve m) := by
  rw [resolveF, resolve]
  suffices h : ∀ items order, resolveGoF m items order =
      some (resolveGo m items order) from h _ _
  intro items
  induction items with
  | nil => intro order; rw [resolveGoF, resolveGo_nil]
  | cons p rest ih =>
    intro order
    obtain ⟨k, v⟩ := p
    rw [resolveGoF]
    rw [addInitF_eq m 12 k v order 0 (by omega)]
    rcases hres : addInit m k v order 0 with ⟨o2, e?⟩
    cases e? with
    | some e => rw [resolveGo_cons_err hres]
    | none => rw [resolveGo_cons_ok hres]; exact ih o2

/-! ## Determinism: the resolution is a function of the mapping
(name to dependency set) alone -/

/-- Two association lists represent the same mapping from names to
dependency sets. -/
def MapEquiv (m₁ m₂ : DepMap) : Prop :=
  ∀ k, Option.map sortDedup (List.lookup k m₁) =
    Option.map sortDedup (List.lookup k m₂)

theorem addInit_addDeps_congr (m m₂ : DepMap) (hme : MapEquiv m m₂) :
    (∀ name deps order depth, ∀ deps₂, sortDedup deps = sortDedup deps₂ →
      addInit m name deps order depth = addInit m₂ name deps₂ order depth) ∧
    (∀ names order ndepth,
      addDeps m names order ndepth = addDeps m₂ names order ndepth) := by
  refine addInit.mutual_induct m
    (fun name deps order depth => ∀ deps₂, sortDedup deps = sortDedup deps₂ →
      addInit m name deps order depth = addInit m₂ name deps₂ order depth)
    (fun names order ndepth =>
      addDeps m names order ndepth = addDeps m₂ names order ndepth)
    ?_ ?_ ?_ ?_ ?_ ?_ ?_ ?_ ?_
  · intro name deps order depth h deps₂ hsd
    rw [addInit_gt h, addInit_gt h]
  · intro name deps order depth h h2 deps₂ hsd
    rw [addInit_of_mem h h2, addInit_of_mem h h2]
  · intro name deps order depth h h2 order2 e h3 ih deps₂ hsd
    have h3' : addDeps m₂ (sortDedup deps₂) order (depth + 1) = (order2, some e) := by
      rw [← hsd, ← ih]; exact h3
    rw [addInit_loop_err h h2 h3, addInit_loop_err h h2 h3']
  · intro name deps order depth h h2 order2 h3 h4 ih deps₂ hsd
    have h3' : addDeps m₂ (sortDedup deps₂) order (depth + 1) = (order2, none) := by
      rw [← hsd, ← ih]; exact h3
    rw [addInit_loop_ok_mem h h2 h3 h4, addInit_loop_ok_mem h h2 h3' h4]
  · intro name deps order depth h h2 order2 h3 h4 ih deps₂ hsd
    have h3' : addDeps m₂ (sortDedup deps₂) order (depth + 1) = (order2, none) := by
      rw [← hsd, ← ih]; exact h3
    rw [addInit_loop_ok_app h h2 h3 h4, addInit_loop_ok_app h h2 h3' h4]
  · intro order ndepth
    rw [addDeps_nil, addDeps_nil]
  · intro order ndepth dn rest h ih
    have h' : List.lookup dn m₂ = none := by
      have := hme dn
      rw [h] at this
      exact Option.map_eq_none'.mp this.symm
    rw [addDeps_cons_absent h, addDeps_cons_absent h']
    exact ih
  · intro order ndepth dn rest ddeps h order2 e h2 ih
    have hsome := hme dn
    rw [h] at hsome
    rcases hl₂ : List.lookup dn m₂ with - | dd₂
    · rw [hl₂] at hsome; simp at hsome
    · rw [hl₂] at hsome
      simp only [Option.map_some'] at hsome
      have hsd : sortDedup ddeps = sortDedup dd₂ := Option.some.inj hsome
      have h2' : addInit m₂ dn dd₂ order ndepth = (order2, some e) := by
        rw [← ih dd₂ hsd]; exact h2
      rw [addDeps_cons_err h h2, addDeps_cons_err hl₂ h2']
  · intro order ndepth dn rest ddeps h order2 h2 ih ih2
    have hsome := hme dn
    rw [h] at hsome
    rcases hl₂ : List.lookup dn m₂ with - | dd₂
    · rw [hl₂] at hsome; simp at hsome
    · rw [hl₂] at hsome
      simp only [Option.map_some'] at hsome
      have hsd : sortDedup ddeps = sortDedup dd₂ := Option.some.inj hsome
      have h2' : addInit m₂ dn dd₂ order ndepth = (order2, none) := by
        rw [← ih dd₂ hsd]; exact h2
      rw [addDeps_cons_ok h h2, addDeps_cons_ok hl₂ h2']
      exact ih2

/-- The driver loop is a congruence in the per-item `_add_init` calls. -/
theorem resolveGo_cong {m₁ m₂ : DepMap}
    (haddInit : ∀ k v₁ v₂ order, List.lookup k m₁ = some v₁ →
      List.lookup k m₂ = some v₂ →
      addInit m₁ k v₁ order 0 = addInit m₂ k v₂ order 0) :
    ∀ (items₁ items₂ : List (String × List String)) (order : List String),
      items₁.map Prod.fst = items₂.map Prod.fst →
      (∀ p ∈ items₁, List.lookup p.1 m₁ = some p.2) →
      (∀ p ∈ items₂, List.lookup p.1 m₂ = some p.2) →
      resolveGo m₁ items₁ order = resolveGo m₂ items₂ order := by
  intro items₁
  induction items₁ with
  | nil =>
    intro items₂ order hmap _ _
    have : items₂ = [] := List.map_eq_nil_iff.mp hmap.symm
    subst this
    rw [resolveGo_nil, resolveGo_nil]
  | cons p rest ih =>
    intro items₂ order hmap h1 h2
    cases items₂ with
    | nil => simp at hmap
    | cons q rest₂ =>
      obtain ⟨k, v⟩ := p
      obtain ⟨k₂, v₂⟩ := q
      simp only [List.map_cons, List.cons.injEq] at hmap
      obtain ⟨hk, hrest⟩ := hmap
      subst hk
      have hlk₁ : List.lookup k m₁ = some v := h1 (k, v) (List.mem_cons_self _ _)
      have hlk₂ : List.lookup k m₂ = some v₂ := h2 (k, v₂) (List.mem_cons_self _ _)
      have heq := haddInit k v v₂ order hlk₁ hlk₂
      rcases hres : addInit m₁ k v order 0 with ⟨o2, e?⟩
      cases e? with
      | some e =>
        rw [resolveGo_cons_err hres, resolveGo_cons_err (heq ▸ hres)]
      | none =>
        rw [resolveGo_cons_ok hres, resolveGo_cons_ok (heq ▸ hres)]
        exact ih rest₂ o2 hrest
          (fun r hr => h1 r (List.mem_cons.mpr (Or.inr hr)))
          (fun r hr => h2 r (List.mem_cons.mpr (Or.inr hr)))

theorem keys_sorted_eq {m₁ m₂ : DepMap} (hnd₁ : KeysNodup m₁)
    (hnd₂ : KeysNodup m₂)
    (hmem : ∀ k, k ∈ m₁.map Prod.fst ↔ k ∈ m₂.map Prod.fst) :
    (sortItems m₁).map Prod.fst = (sortItems m₂).map Prod.fst := by
  refine eq_of_sorted_of_mem_iff ?_ ?_ ?_ ?_ ?_
  · exact List.pairwise_map.mpr (sortItems_sorted m₁)
  · exact List.pairwise_map.mpr (sortItems_sorted m₂)
  · exact (((sortItems_perm m₁).map Prod.fst).nodup_iff).mpr hnd₁
  · exact (((sortItems_perm m₂).map Prod.fst).nodup_iff).mpr hnd₂
  · intro x
    rw [((sortItems_perm m₁).map Prod.fst).mem_iff,
      ((sortItems_perm m₂).map Prod.fst).mem_iff]
    exact hmem x

/-- Resolution is deterministic in the represented mapping: equal mappings
(as functions from names to dependency sets) resolve identically. -/
theorem resolve_congr {m₁ m₂ : DepMap} (hnd₁ : KeysNodup m₁)
    (hnd₂ : KeysNodup m₂) (hme : MapEquiv m₁ m₂) :
    resolve m₁ = resolve m₂ := by
  rw [resolve, resolve]
  refine resolveGo_cong ?_ (sortItems m₁) (sortItems m₂) [] ?_ ?_ ?_
  · intro k v₁ v₂ order hl₁ hl₂
    have := hme k
    rw [hl₁, hl₂] at this
    simp only [Option.map_some'] at this
    exact (addInit_addDeps_congr m₁ m₂ hme).1 k v₁ order 0 v₂ (Option.some.inj this)
  · refine keys_sorted_eq hnd₁ hnd₂ (fun k => ?_)
    rw [← lookup_isSome_iff, ← lookup_isSome_iff]
    have := hme k
    cases hl₁ : List.lookup k m₁ <;> cases hl₂ : List.lookup k m₂ <;>
      rw [hl₁, hl₂] at this <;> simp_all
  · intro p hp
    exact lookup_eq_of_mem hnd₁ ((sortItems_perm m₁).mem_iff.mp hp)
  · intro p hp
    exact lookup_eq_of_mem hnd₂ ((sortItems_perm m₂).mem_iff.mp hp)

/-! ## Dependencies that are not keys are silently irrelevant -/

/-- The mapping with every dependency name that is absent from the key set
removed. -/
def eraseAbsentDeps (m : DepMap) : DepMap :=
  m.map (fun p => (p.1, p.2.filter (fun d => (List.lookup d m).isSome)))

theorem lookup_map_val {β γ : Type} (g : β → γ) :
    ∀ (m : List (String × β)) (k : String),
      List.lookup k (m.map (fun p => (p.1, g p.2))) = (List.lookup k m).map g := by
  intro m
  induction m with
  | nil => intro k; rfl
  | cons p rest ih =>
    intro k
    rw [List.map_cons, List.lookup, List.lookup]
    by_cases h : k = p.1
    · simp [h]
    · have hb : (k == p.1) = false := by simp [h]
      simp only [hb]
      exact ih k

theorem addInit_addDeps_erase (m : DepMap) :
    (∀ name deps order depth, ∀ deps₂,
      sortDedup deps₂ = (sortDedup deps).filter (fun d => (List.lookup d m).isSome) →
      addInit (eraseAbsentDeps m) name deps₂ order depth =
        addInit m name deps order depth) ∧
    (∀ names order ndepth,
      addDeps (eraseAbsentDeps m)
        (names.filter (fun d => (List.lookup d m).isSome)) order ndepth =
        addDeps m names order ndepth) := by
  refine addInit.mutual_induct m
    (fun name deps order depth => ∀ deps₂,
      sortDedup deps₂ = (sortDedup deps).filter (fun d => (List.lookup d m).isSome) →
      addInit (eraseAbsentDeps m) name deps₂ order depth =
        addInit m name deps order depth)
    (fun names order ndepth =>
      addDeps (eraseAbsentDeps m)
        (names.filter (fun d => (List.lookup d m).isSome)) order ndepth =
        addDeps m names order ndepth)
    ?_ ?_ ?_ ?_ ?_ ?_ ?_ ?_ ?_
  · intro name deps order depth h deps₂ hsd
    rw [addInit_gt h, addInit_gt h]
  · intro name deps order depth h h2 deps₂ hsd
    rw [addInit_of_mem h h2, addInit_of_mem h h2]
  · intro name deps order depth h h2 order2 e h3 ih deps₂ hsd
    have h3' : addDeps (eraseAbsentDeps m) (sortDedup deps₂) order (depth + 1) =
        (order2, some e) := by
      rw [hsd, ih]; exact h3
    rw [addInit_loop_err h h2 h3, addInit_loop_err h h2 h3']
  · intro name deps order depth h h2 order2 h3 h4 ih deps₂ hsd
    have h3' : addDeps (eraseAbsentDeps m) (sortDedup deps₂) order (depth + 1) =
        (order2, none) := by
      rw [hsd, ih]; exact h3
    rw [addInit_loop_ok_mem h h2 h3 h4, addInit_loop_ok_mem h h2 h3' h4]
  · intro name deps order depth h h2 order2 h3 h4 ih deps₂ hsd
    have h3' : addDeps (eraseAbsentDeps m) (sortDedup deps₂) order (depth + 1) =
        (order2, none) := by
      rw [hsd, ih]; exact h3
    rw [addInit_loop_ok_app h h2 h3 h4, addInit_loop_ok_app h h2 h3' h4]
  · intro order ndepth
    rw [List.filter_nil, addDeps_nil, addDeps_nil]
  · intro order ndepth dn rest h ih
    have hb : ((List.lookup dn m).isSome) = false := by rw [h]; rfl
    rw [List.filter_cons, if_neg (by simp [hb])]
    rw [addDeps_cons_absent h]
    exact ih
  · intro order ndepth dn rest ddeps h order2 e h2 ih
    have hb : ((List.lookup dn m).isSome) = true := by rw [h]; rfl
    rw [List.filter_cons, if_pos (by simp [hb])]
    have hl' : List.lookup dn (eraseAbsentDeps m) =
        some (ddeps.filter (fun d => (List.lookup d m).isSome)) := by
      rw [eraseAbsentDeps, lookup_map_val, h, Option.map_some']
    have h2' : addInit (eraseAbsentDeps m) dn
        (ddeps.filter (fun d => (List.lookup d m).isSome)) order ndepth =
        (order2, some e) := by
      rw [ih (ddeps.filter (fun d => (List.lookup d m).isSome))
        (sortDedup_filter _ ddeps)]
      exact h2
    rw [addDeps_cons_err hl' h2', addDeps_cons_err h h2]
  · intro order ndepth dn rest ddeps h order2 h2 ih ih2
    have hb : ((List.lookup dn m).isSome) = true := by rw [h]; rfl
    rw [List.filter_cons, if_pos (by simp [hb])]
    have hl' : List.lookup dn (eraseAbsentDeps m) =
        some (ddeps.filter (fun d => (List.lookup d m).isSome)) := by
      rw [eraseAbsentDeps, lookup_map_val, h, Option.map_some']
    have h2' : addInit (eraseAbsentDeps m) dn
        (ddeps.filter (fun d => (List.lookup d m).isSome)) order ndepth =
        (order2, none) := by
      rw [ih (ddeps.filter (fun d => (List.lookup d m).isSome))
        (sortDedup_filter _ ddeps)]
      exact h2
    rw [addDeps_cons_ok hl' h2', addDeps_cons_ok h h2]
    exact ih2

theorem orderedInsert_map_val {β γ : Type} (g : β → γ) (p : String × β) :
    ∀ (l : List (String × β)),
      List.orderedInsert keyLE (p.1, g p.2) (l.map (fun q => (q.1, g q.2))) =
        (List.orderedInsert keyLE p l).map (fun q => (q.1, g q.2)) := by
  intro l
  induction l with
  | nil => rfl
  | cons q t ih =>
    rw [List.map_cons, List.orderedInsert, List.orderedInsert]
    by_cases h : keyLE p q
    · have h' : keyLE (p.1, g p.2) (q.1, g q.2) := h
      rw [if_pos h', if_pos h]
      rfl
    · have h' : ¬ keyLE (p.1, g p.2) (q.1, g q.2) := h
      rw [if_neg h', if_neg h]
      rw [List.map_cons, ih]

theorem sortItems_map_val {β γ : Type} (g : β → γ) :
    ∀ (m : List (String × β)),
      sortItems (m.map (fun p => (p.1, g p.2))) =
        (sortItems m).map (fun q => (q.1, g q.2)) := by
  intro m
  induction m with
  | nil => rfl
  | cons p rest ih =>
    rw [List.map_cons, sortItems, sortItems, List.insertionSort, List.insertionSort]
    rw [show List.insertionSort keyLE (rest.map (fun p => (p.1, g p.2))) =
      sortItems (rest.map (fun p => (p.1, g p.2))) from rfl, ih]
    exact orderedInsert_map_val g p (List.insertionSort keyLE rest)

theorem resolveGo_erase (m : DepMap) :
    ∀ (items : List (String × List String)) (order : List String),
      resolveGo (eraseAbsentDeps m)
        (items.map (fun p => (p.1, p.2.filter (fun d => (List.lookup d m).isSome))))
        order = resolveGo m items order := by
  intro items
  induction items with
  | nil => intro order; rw [List.map_nil, resolveGo_nil, resolveGo_nil]
  | cons p rest ih =>
    intro order
    obtain ⟨k, v⟩ := p
    rw [List.map_cons]
    have heq : addInit (eraseAbsentDeps m) k
        (v.filter (fun d => (List.lookup d m).isSome)) order 0 =
        addInit m k v order 0 :=
      (addInit_addDeps_erase m).1 k v order 0 _ (sortDedup_filter _ v)
    rcases hres : addInit m k v order 0 with ⟨o2, e?⟩
    cases e? with
    | some e =>
      rw [resolveGo_cons_err hres, resolveGo_cons_err (heq.trans hres)]
    | none =>
      rw [resolveGo_cons_ok hres, resolveGo_cons_ok (heq.trans hres)]
      exact ih o2

/-- Removing the dependency names that are not keys does not change the
resolution at all: absent dependencies are silently ignored. -/
theorem resolve_eraseAbsent (m : DepMap) :
    resolve (eraseAbsentDeps m) = resolve m := by
  rw [resolve, resolve, eraseAbsentDeps, sortItems_map_val]
  exact resolveGo_erase m (sortItems m) []

/-- `_add_init` only ever appends names that are keys of the mapping. -/
theorem addInit_addDeps_keys (m : DepMap) :
    (∀ name deps order depth, (List.lookup name m).isSome →
      (∀ z ∈ order, (List.lookup z m).isSome) →
      ∀ z ∈ (addInit m name deps order depth).1, (List.lookup z m).isSome) ∧
    (∀ names order ndepth, (∀ z ∈ order, (List.lookup z m).isSome) →
      ∀ z ∈ (addDeps m names order ndepth).1, (List.lookup z m).isSome) := by
  refine addInit.mutual_induct m
    (fun name deps order depth => (List.lookup name m).isSome →
      (∀ z ∈ order, (List.lookup z m).isSome) →
      ∀ z ∈ (addInit m name deps order depth).1, (List.lookup z m).isSome)
    (fun names order ndepth => (∀ z ∈ order, (List.lookup z m).isSome) →
      ∀ z ∈ (addDeps m names order ndepth).1, (List.lookup z m).isSome)
    ?_ ?_ ?_ ?_ ?_ ?_ ?_ ?_ ?_
  · intro name deps order depth h hk ho z hz
    rw [addInit_gt h] at hz; exact ho z hz
  · intro name deps order depth h h2 hk ho z hz
    rw [addInit_of_mem h h2] at hz; exact ho z hz
  · intro name deps order depth h h2 order2 e h3 ih hk ho z hz
    rw [addInit_loop_err h h2 h3] at hz
    have := ih ho z (by rw [h3]; exact hz)
    exact this
  · intro name deps order depth h h2 order2 h3 h4 ih hk ho z hz
    rw [addInit_loop_ok_mem h h2 h3 h4] at hz
    exact ih ho z (by rw [h3]; exact hz)
  · intro name deps order depth h h2 order2 h3 h4 ih hk ho z hz
    rw [addInit_loop_ok_app h h2 h3 h4] at hz
    rcases List.mem_append.mp hz with hz' | hz'
    · exact ih ho z (by rw [h3]; exact hz')
    · have : z = name := by simpa using hz'
      subst this; exact hk
  · intro order ndepth ho z hz
    rw [addDeps_nil] at hz; exact ho z hz
  · intro order ndepth dn rest h ih ho z hz
    rw [addDeps_cons_absent h] at hz; exact ih ho z hz
  · intro order ndepth dn rest ddeps h order2 e h2 ih ho z hz
    rw [addDeps_cons_err h h2] at hz
    exact ih (by rw [h]; rfl) ho z (by rw [h2]; exact hz)
  · intro order ndepth dn rest ddeps h order2 h2 ih ih2 ho z hz
    rw [addDeps_cons_ok h h2] at hz
    refine ih2 (fun y hy => ?_) z hz
    exact ih (by rw [h]; rfl) ho y (by rw [h2]; exact hy)

/-- Only names present as keys appear in the resolved order. -/
theorem resolve_keys (m : DepMap) :
    ∀ z ∈ (resolve m).1, (List.lookup z m).isSome := by
  rw [resolve]
  have hgo : ∀ (items : List (String × List String)) (order : List String),
      (∀ p ∈ items, (List.lookup p.1 m).isSome) →
      (∀ z ∈ order, (List.lookup z m).isSome) →
      ∀ z ∈ (resolveGo m items order).1, (List.lookup z m).isSome := by
    intro items
    induction items with
    | nil => intro order _ ho z hz; rw [resolveGo_nil] at hz; exact ho z hz
    | cons p rest ih =>
      intro order hp ho z hz
      obtain ⟨k, v⟩ := p
      rcases hres : addInit m k v order 0 with ⟨o2, e?⟩
      have hknext : ∀ y ∈ o2, (List.lookup y m).isSome := by
        intro y hy
        exact (addInit_addDeps_keys m).1 k v order 0
          (hp (k, v) (List.mem_cons_self _ _)) ho y (by rw [hres]; exact hy)
      cases e? with
      | some e =>
        rw [resolveGo_cons_err hres] at hz
        exact hknext z hz
      | none =>
        rw [resolveGo_cons_ok hres] at hz
        exact ih o2 (fun q hq => hp q (List.mem_cons.mpr (Or.inr hq))) hknext z hz
  refine hgo (sortItems m) [] (fun p hp => ?_) (by simp)
  exact lookup_isSome_iff.mpr
    (List.mem_map.mpr ⟨p, (sortItems_perm m).mem_iff.mp hp, rfl⟩)

/-! ## Substring facts about the generated properties text -/

/-- `a` occurs contiguously inside `b`. -/
def strInfix (a b : String) : Prop := a.data <:+: b.data

theorem foldl_append_data (f : String → String) :
    ∀ (L : List String) (acc : String), ∃ t : List Char,
      (L.foldl (fun a x => a ++ f x) acc).data = acc.data ++ t := by
  intro L
  induction L with
  | nil => intro acc; exact ⟨[], by simp⟩
  | cons x rest ih =>
    intro acc
    rw [List.foldl_cons]
    obtain ⟨t, ht⟩ := ih (acc ++ f x)
    refine ⟨(f x).data ++ t, ?_⟩
    rw [ht, String.data_append, List.append_assoc]

theorem foldl_append_infix (f : String → String) :
    ∀ (L : List String) (acc n : String), n ∈ L →
      strInfix (f n) (L.foldl (fun a x => a ++ f x) acc) := by
  intro L
  induction L with
  | nil => intro acc n h; simp at h
  | cons x rest ih =>
    intro acc n h
    rcases List.mem_cons.mp h with rfl | h'
    · rw [List.foldl_cons]
      obtain ⟨t, ht⟩ := foldl_append_data f rest (acc ++ f n)
      rw [strInfix, ht, String.data_append]
      exact ⟨acc.data, t, by rw [List.append_assoc]⟩
    · rw [List.foldl_cons]
      exact ih (acc ++ f x) n h'

/-! ## Structure of `replaceSection` -/

theorem splitAtFirst_some :
    ∀ (d : List String) (mk : String) (before rest : List String),
      splitAtFirst d mk = some (before, rest) →
      d = before ++ mk :: rest ∧ mk ∉ before := by
  intro d
  induction d with
  | nil => intro mk b r h; simp [splitAtFirst] at h
  | cons x xs ih =>
    intro mk b r h
    rw [splitAtFirst] at h
    by_cases hx : x = mk
    · rw [if_pos hx] at h
      simp only [Option.some.injEq, Prod.mk.injEq] at h
      obtain ⟨h1, h2⟩ := h
      subst h1; subst h2; subst hx
      exact ⟨rfl, by simp⟩
    · rw [if_neg hx] at h
      cases hs : splitAtFirst xs mk with
      | none => rw [hs] at h; simp at h
      | some p =>
        obtain ⟨b', r'⟩ := p
        rw [hs] at h
        simp only [Option.map_some', Option.some.injEq, Prod.mk.injEq] at h
        obtain ⟨h1, h2⟩ := h
        subst h1; subst h2
        obtain ⟨hd, hnm⟩ := ih mk b' r' hs
        constructor
        · rw [List.cons_append, ← hd]
        · intro hmem
          rcases List.mem_cons.mp hmem with h' | h'
          · exact hx h'.symm
          · exact hnm h'

theorem splitAtFirst_append (mk : String) :
    ∀ (before rest : List String), mk ∉ before →
      splitAtFirst (before ++ mk :: rest) mk = some (before, rest) := by
  intro before
  induction before with
  | nil => intro rest _; rw [List.nil_append, splitAtFirst, if_pos rfl]
  | cons x xs ih =>
    intro rest h
    rw [List.cons_append, splitAtFirst]
    have hx : ¬ x = mk := fun he => h (by rw [he]; exact List.mem_cons_self _ _)
    rw [if_neg hx, ih rest (fun hm => h (List.mem_cons.mpr (Or.inr hm)))]
    rfl

theorem replaceSection_ok {doc : List String} {b e : String}
    {c before rest mid after : List String} {k : Bool}
    (h1 : splitAtFirst doc b = some (before, rest))
    (h2 : splitAtFirst rest e = some (mid, after)) (h3 : mid ≠ []) :
    replaceSection doc b e c k =
      .ok (before ++ (if k then [b] else []) ++ c
        ++ (if k then [e] else []) ++ after) := by
  simp only [replaceSection, h1, h2, if_neg h3]

theorem replaceSection_ok_inv {doc : List String} {b e : String}
    {c d' : List String} {k : Bool}
    (h : replaceSection doc b e c k = .ok d') :
    ∃ before rest mid after,
      splitAtFirst doc b = some (before, rest) ∧
      splitAtFirst rest e = some (mid, after) ∧ mid ≠ [] ∧
      d' = before ++ (if k then [b] else []) ++ c
        ++ (if k then [e] else []) ++ after := by
  rw [replaceSection] at h
  cases h1 : splitAtFirst doc b with
  | none => rw [h1] at h; simp at h
  | some p =>
    obtain ⟨before, rest⟩ := p
    simp only [h1] at h
    cases h2 : splitAtFirst rest e with
    | none =>
      simp only [h2] at h
      by_cases h' : e ∈ before ∨ e = b
      · rw [if_pos h'] at h; simp at h
      · rw [if_neg h'] at h; simp at h
    | some q =>
      obtain ⟨mid, after⟩ := q
      simp only [h2] at h
      by_cases h3 : mid = []
      · rw [if_pos h3] at h; simp at h
      · rw [if_neg h3] at h
        exact ⟨before, rest, mid, after, rfl, h2, h3, (Except.ok.inj h).symm⟩

/-- Idempotence of the marker-keeping rewrite: a second rewrite with the
same markers and content reproduces its input byte for byte, provided the
content keeps its hands off the markers (no content line equals a marker)
and is nonempty. -/
theorem replaceSection_idem {d d' : List String} {b e : String}
    {c : List String}
    (_hcb : d.count b = 1) (_hce : d.count e = 1)
    (hec : e ∉ c) (hcne : c ≠ [])
    (h : replaceSection d b e c true = .ok d') :
    replaceSection d' b e c true = .ok d' := by
  obtain ⟨before, rest, mid, after, h1, h2, h3, hd'⟩ := replaceSection_ok_inv h
  obtain ⟨hd, hbnb⟩ := splitAtFirst_some d b before rest h1
  obtain ⟨hrest, henm⟩ := splitAtFirst_some rest e mid after h2
  have hd'2 : d' = before ++ b :: (c ++ e :: after) := by
    rw [hd']; simp
  have hsplit1 : splitAtFirst d' b = some (before, c ++ e :: after) := by
    rw [hd'2]; exact splitAtFirst_append b before (c ++ e :: after) hbnb
  have hsplit2 : splitAtFirst (c ++ e :: after) e = some (c, after) :=
    splitAtFirst_append e c after hec
  rw [replaceSection_ok hsplit1 hsplit2 hcne, hd']

/-! ## The generator is the four-stage rewrite pipeline of the spec -/

theorem generateAppModule_eq_pipeline (fsets : List (String × FeatureSet))
    (doc : List String) :
    generateAppModule fsets doc = appModulePipelineSpec fsets doc := by
  rw [generateAppModule, appModulePipelineSpec]
  cases h1 : replaceSection doc
      "    # __FEATURESET_APP_SUBSYSTEM_IMPORTS_BEGIN__\n"
      "    # __FEATURESET_APP_SUBSYSTEM_IMPORTS_END__\n"
      (toLines (importsSectionText fsets)) true with
  | error e => rfl
  | ok out1 =>
    simp only [Except.mapError, Except.bind]
    cases h2 : replaceSection out1
        "    # __FEATURESET_APP_SUBSYSTEM_PROPERTIES_BEGIN__\n"
        "    # __FEATURESET_APP_SUBSYSTEM_PROPERTIES_END__\n"
        (toLines (propsSectionText fsets)) true with
    | error e => rfl
    | ok out2 =>
      simp only [Except.mapError, Except.bind]
      rcases h3 : resolve (allSS fsets) with ⟨initOrder, e?⟩
      cases e? with
      | some e => simp only [initOrderE, h3, Except.bind]
      | none =>
        simp only [initOrderE, h3, Except.bind]
        cases h4 : replaceSection out2
            "        # __FEATURESET_APP_SUBSYSTEM_CREATE_BEGIN__\n"
            "        # __FEATURESET_APP_SUBSYSTEM_CREATE_END__\n"
            (toLines (createSectionText initOrder)) true with
        | error e => rfl
        | ok out3 =>
          simp only [Except.mapError, Except.bind]
          cases h5 : replaceSection out3
              "            # __DEFAULT_APP_MODE_SELECTION_BEGIN__\n"
              "            # __DEFAULT_APP_MODE_SELECTION_END__\n"
              (toLines (modeSectionText fsets)) true with
          | error e => rfl
          | ok out4 => rfl

/-! ## Concrete inputs -/

/-- An acyclic dependency chain of twelve feature sets:
`a → b → ... → l`. -/
def chain12 : DepMap :=
  [("a", ["b"]), ("b", ["c"]), ("c", ["d"]), ("d", ["e"]), ("e", ["f"]),
   ("f", ["g"]), ("g", ["h"]), ("h", ["i"]), ("i", ["j"]), ("j", ["k"]),
   ("k", ["l"]), ("l", [])]

/-- The twelve-deep acyclic chain together with a disjoint two-element
dependency cycle `y ↔ z`. -/
def cycleWithChain : DepMap :=
  chain12 ++ [("y", ["z"]), ("z", ["y"])]

/-- The minimal two-element dependency cycle. -/
def twoCycle : DepMap := [("a", ["b"]), ("b", ["a"])]

instance (m : DepMap) (x y : String) : Decidable (Step m x y) :=
  inferInstanceAs (Decidable (y ∈ presentDeps m x))

/-- A ranking that decreases along the dependency edges of `chain12`. -/
def rank12 (s : String) : Nat :=
  List.indexOf s ["l", "k", "j", "i", "h", "g", "f", "e", "d", "c", "b", "a"]

theorem step_keys {m : DepMap} {x y : String} (h : Step m x y) :
    (List.lookup x m).isSome ∧ (List.lookup y m).isSome := by
  rw [Step] at h
  rcases hl : List.lookup x m with - | ds
  · rw [presentDeps_eq_none hl] at h; simp at h
  · rw [presentDeps_eq_some hl] at h
    exact ⟨rfl, (List.mem_filter.mp h).2⟩

instance (m : DepMap) : Decidable (KeysNodup m) :=
  inferInstanceAs (Decidable ((m.map Prod.fst).Nodup))

instance {ε α : Type} [DecidableEq ε] [DecidableEq α] : DecidableEq (Except ε α)
  | .error e, .error f =>
    if h : e = f then .isTrue (by rw [h])
    else .isFalse (by intro he; injection he; exact h (by assumption))
  | .error _, .ok _ => .isFalse (by intro h; injection h)
  | .ok _, .error _ => .isFalse (by intro h; injection h)
  | .ok a, .ok b =>
    if h : a = b then .isTrue (by rw [h])
    else .isFalse (by intro he; injection he; exact h (by assumption))

theorem resolve_chain12_eq :
    resolve chain12 = ([], some (.depCycle "l")) := by
  have h := resolveF_eq chain12
  rw [show resolveF chain12 = some ([], some (ResolveErr.depCycle "l"))
    from by decide] at h
  exact (Option.some.inj h).symm

theorem chain12_acyclic : Acyclic chain12 := by
  have hrank : ∀ x ∈ chain12.map Prod.fst, ∀ y ∈ chain12.map Prod.fst,
      Step chain12 x y → rank12 y < rank12 x := by decide
  have hstep : ∀ x y, Step chain12 x y → rank12 y < rank12 x := by
    intro x y h
    obtain ⟨hx, hy⟩ := step_keys h
    exact hrank x (lookup_isSome_iff.mp hx) y (lookup_isSome_iff.mp hy) h
  intro n htg
  have hlt : ∀ a b, Relation.TransGen (Step chain12) a b →
      rank12 b < rank12 a := by
    intro a b h
    induction h with
    | single h' => exact hstep _ _ h'
    | tail h1 h2 ih => exact lt_trans (hstep _ _ h2) ih
  exact absurd (hlt n n htg) (lt_irrefl _)

theorem resolve_cycleWithChain_eq :
    resolve cycleWithChain = ([], some (.depCycle "l")) := by
  have h := resolveF_eq cycleWithChain
  rw [show resolveF cycleWithChain = some ([], some (ResolveErr.depCycle "l"))
    from by decide] at h
  exact (Option.some.inj h).symm

theorem depsClosed_nil (m : DepMap) : DepsClosed m [] := by
  intro x hx
  simp at hx

/-! ## The claims -/

/-- C1: the claim states that for every dependency mapping whose dependency
relation, restricted to names present as keys, is acyclic, the init-order
resolution returns without error a permutation of the key set with every
present dependency before its dependent.  The code violates this: the
twelve-deep acyclic chain `chain12` has no dependency cycle, yet resolution
raises the dependency-cycle `RuntimeError` (naming `l`) because `_add_init`
treats recursion depth greater than 10 as a cycle.  The spec itself calls
the depth bound a bug to fix (§9), so this is a code bug, witnessed here by
evaluating the code on the failing input. -/
theorem claim_C1 :
    Acyclic chain12 ∧ resolve chain12 = ([], some (.depCycle "l")) :=
  ⟨chain12_acyclic, resolve_chain12_eq⟩

/-- C2 counterexample: the claim as stated is false.  `cycleWithChain`
contains the two-element cycle `{y: [z], z: [y]}` among present keys, and
resolution does raise, but the error message names `l`, a feature set that
lies on no dependency cycle at all: the depth bound fires inside the
disjoint acyclic chain first. -/
theorem claim_C2_counterexample :
    resolve cycleWithChain = ([], some (.depCycle "l")) ∧
    "z" ∈ presentDeps cycleWithChain "y" ∧
    "y" ∈ presentDeps cycleWithChain "z" ∧
    ¬ Relation.TransGen (Step cycleWithChain) "l" "l" := by
  refine ⟨resolve_cycleWithChain_eq, by decide, by decide, ?_⟩
  intro h
  obtain ⟨b, hb, -⟩ := Relation.TransGen.head'_iff.mp h
  rw [Step, show presentDeps cycleWithChain "l" = [] from by decide] at hb
  simp at hb

/-- C2 (amended): for every dependency mapping containing a two-element
cycle such as `{a: [b], b: [a]}` among present keys, init-order resolution
raises the dependency-cycle `RuntimeError` rather than returning a sequence;
the error names the feature set at which the recursion-depth bound was
exceeded, which need not belong to the cycle. -/
theorem claim_C2 (m : DepMap) (a b : String) (hnd : KeysNodup m)
    (hab : b ∈ presentDeps m a) (hba : a ∈ presentDeps m b) :
    ∃ w, (resolve m).2 = some (.depCycle w) :=
  resolve_two_cycle_err hnd hab hba

/-- Witness for C2 at the mapping `{a: [b], b: [a]}`. -/
theorem claim_C2_witness :
    ∃ w, (resolve twoCycle).2 = some (.depCycle w) :=
  claim_C2 twoCycle "a" "b" (by decide) (by decide) (by decide)

/-- C3: init-order resolution is deterministic: two dependency mappings that
are equal as mappings (same keys, each key bound to the same dependency set,
regardless of construction or insertion order) resolve to identical results,
because traversal is in sorted-name order at every branching point. -/
theorem claim_C3 (m₁ m₂ : DepMap) (hnd₁ : KeysNodup m₁) (hnd₂ : KeysNodup m₂)
    (hme : MapEquiv m₁ m₂) : resolve m₁ = resolve m₂ :=
  resolve_congr hnd₁ hnd₂ hme

/-- Witness for C3: two differently ordered association lists with the same
mapping content resolve identically. -/
theorem claim_C3_witness :
    resolve [("x", ["b", "a", "a"]), ("a", [])] =
      resolve [("a", []), ("x", ["a", "b"])] := by
  refine claim_C3 _ _ (by decide) (by decide) ?_
  intro k
  by_cases h1 : k = "x"
  · subst h1; decide
  · by_cases h2 : k = "a"
    · subst h2; decide
    · have b1 : (k == "x") = false := by simp [h1]
      have b2 : (k == "a") = false := by simp [h2]
      simp [List.lookup, b1, b2]

/-- C4: a dependency name that is not a key of the mapping is silently
ignored by init-order resolution (removing all such names changes nothing,
so they are never an error), and only names present as keys ever appear in
the output sequence. -/
theorem claim_C4 (m : DepMap) :
    resolve (eraseAbsentDeps m) = resolve m ∧
    ∀ z ∈ (resolve m).1, (List.lookup z m).isSome :=
  ⟨resolve_eraseAbsent m, resolve_keys m⟩

/-- Witness for C4 at a mapping with the absent dependency `zz`. -/
theorem claim_C4_witness :
    resolve (eraseAbsentDeps [("p", ["q", "zz"]), ("q", [])]) =
      resolve [("p", ["q", "zz"]), ("q", [])] ∧
    (List.lookup "q" [("p", ["q", "zz"]), ("q", ([] : List String))]).isSome := by
  have hr : resolve [("p", ["q", "zz"]), ("q", [])] = (["q", "p"], none) := by
    have h := resolveF_eq [("p", ["q", "zz"]), ("q", [])]
    rw [show resolveF [("p", ["q", "zz"]), ("q", [])] = some (["q", "p"], none)
      from by decide] at h
    exact (Option.some.inj h).symm
  exact ⟨(claim_C4 _).1,
    (claim_C4 [("p", ["q", "zz"]), ("q", [])]).2 "q" (by rw [hr]; decide)⟩

/-- C5: a feature-set name that is a soft requirement of a present feature
set but is itself absent from the working set never fails generation (the
properties text is a total function of the inputs); instead the generated
properties text contains, for that name, the `cached_property` block whose
body returns `None`. -/
theorem claim_C5 (fsets : List (String × FeatureSet)) (name : String)
    (hsoft : ∃ p ∈ fsets, name ∈ p.2.soft_requirements)
    (habs : List.lookup name fsets = none) :
    strInfix (noneBlock name) (propsContents fsets) := by
  obtain ⟨p, hp, hmem⟩ := hsoft
  have hmiss : name ∈ missingSoftNames fsets := by
    rw [missingSoftNames]
    refine List.mem_flatMap.mpr ⟨p, hp, List.mem_filter.mpr ⟨hmem, ?_⟩⟩
    rw [habs]; rfl
  have hall : name ∈ sortDedup (missingSoftNames fsets ++ fsets.map Prod.fst) :=
    mem_sortDedup.mpr (List.mem_append.mpr (Or.inl hmiss))
  have hblock : propBlockFor fsets name = noneBlock name := by
    rw [propBlockFor, if_pos hmiss]
  rw [propsContents]
  have h := foldl_append_infix (propBlockFor fsets) _ "" name hall
  rw [hblock] at h
  exact h

/-- Witness for C5: a single present feature set that soft-requires the
absent `plus`. -/
theorem claim_C5_witness :
    strInfix (noneBlock "plus")
      (propsContents [("base", FeatureSet.mk true "babase" "Base" ["plus"] false [])]) :=
  claim_C5 [("base", FeatureSet.mk true "babase" "Base" ["plus"] false [])]
    "plus" ⟨("base", FeatureSet.mk true "babase" "Base" ["plus"] false []),
      by decide, by decide⟩ (by decide)

/-- C6: `generate_app_module` threads one document through exactly four
sequential section rewrites (imports, subsystem properties,
initialization-poke sequence, default app-mode selection), the output of
each rewrite being the input of the next, every rewrite keeping its markers,
with the initialization-poke text enumerating feature sets in the order
produced by init-order resolution: the source translation equals the
four-stage pipeline stated by the spec. -/
theorem claim_C6 (fsets : List (String × FeatureSet)) (doc : List String) :
    generateAppModule fsets doc = appModulePipelineSpec fsets doc :=
  generateAppModule_eq_pipeline fsets doc

/-- C7 counterexample: rewriting is not idempotent for every flag `k`.  With
`keepMarkers = false` the markers are consumed, so the second rewrite fails
with `MarkerNotFoundError` instead of reproducing the first result. -/
theorem claim_C7_counterexample :
    Except.bind (replaceSection ["X", "B", "old", "E", "Y"] "B" "E" ["new"] false)
        (fun d2 => replaceSection d2 "B" "E" ["new"] false) ≠
      replaceSection ["X", "B", "old", "E", "Y"] "B" "E" ["new"] false := by
  decide

/-- C7 (amended): the section rewrite is idempotent for `keepMarkers = true`:
for any document in which the markers each occur exactly once and any
nonempty content none of whose lines equals the end marker, rewriting the
rewritten document with the same arguments returns it byte for byte. -/
theorem claim_C7 (d d' : List String) (b e : String) (c : List String)
    (hcb : d.count b = 1) (hce : d.count e = 1) (hec : e ∉ c) (hcne : c ≠ [])
    (h : replaceSection d b e c true = .ok d') :
    replaceSection d' b e c true = .ok d' :=
  replaceSection_idem hcb hce hec hcne h

/-- Witness for C7 on the spec's scenario document. -/
theorem claim_C7_witness :
    replaceSection ["X", "B", "new", "E", "Y"] "B" "E" ["new"] true =
      .ok ["X", "B", "new", "E", "Y"] :=
  claim_C7 ["X", "B", "old", "E", "Y"] ["X", "B", "new", "E", "Y"] "B" "E"
    ["new"] (by decide) (by decide) (by decide) (by decide) (by decide)

/-- C8: the partially built `init_order` always satisfies the topological
invariant: a whole resolution run ends in a valid order (even when it ends
by raising), and each `_add_init` call maps a valid order to a valid order
on every return path, so every name was appended only after all of its
present dependencies and no name appears twice. -/
theorem claim_C8 (m : DepMap) :
    (KeysNodup m → Valid m (resolve m).1) ∧
    (∀ name deps order depth, List.lookup name m = some deps →
      Valid m order → Valid m (addInit m name deps order depth).1) :=
  ⟨fun hnd => resolve_valid hnd,
   fun n ds o d hl hv => (addInit_addDeps_valid m).1 n ds o d hl hv⟩

/-- Witness for C8 at a two-element mapping. -/
theorem claim_C8_witness :
    Valid [("a", ["b"]), ("b", [])] (resolve [("a", ["b"]), ("b", [])]).1 ∧
    Valid [("a", ["b"]), ("b", [])]
      (addInit [("a", ["b"]), ("b", [])] "a" ["b"] [] 0).1 :=
  ⟨(claim_C8 [("a", ["b"]), ("b", [])]).1 (by decide),
   (claim_C8 [("a", ["b"]), ("b", [])]).2 "a" ["b"] [] 0 (by decide)
     (valid_nil _)⟩

/-- C9: the assertion in `_add_init` is valid: a resolution run never raises
`AssertionError`, and no `_add_init` call started on a dependency-closed
`init_order` with the feature set's own dependency list can return the
assertion failure — a dependency path leading back to the visited feature
set would exhaust the recursion-depth bound first. -/
theorem claim_C9 (m : DepMap) :
    (KeysNodup m → ∀ w, (resolve m).2 ≠ some (.assertFail w)) ∧
    (∀ name deps order depth w, List.lookup name m = some deps →
      DepsClosed m order →
      (addInit m name deps order depth).2 ≠ some (.assertFail w)) :=
  ⟨fun hnd w => resolve_noAssert hnd w,
   fun n ds o d w hl hdc => (addInit_addDeps_noAssert m).1 n ds o d hl hdc w⟩

/-- Witness for C9 at a two-element mapping. -/
theorem claim_C9_witness :
    ((resolve [("a", ["b"]), ("b", [])]).2 ≠ some (.assertFail "a")) ∧
    ((addInit [("a", ["b"]), ("b", [])] "a" ["b"] [] 0).2 ≠
      some (.assertFail "a")) :=
  ⟨(claim_C9 [("a", ["b"]), ("b", [])]).1 (by decide) "a",
   (claim_C9 [("a", ["b"]), ("b", [])]).2 "a" ["b"] [] 0 "a" (by decide)
     (depsClosed_nil _)⟩

/-- C10: `_add_init` terminates on every input: the fuel-bounded interpreter
never exhausts its fuel once the fuel exceeds `11 - depth`, because every
recursive call strictly increases the depth argument and any call with depth
greater than 10 raises immediately, so it always computes the (total)
resolution function. -/
theorem claim_C10 (m : DepMap) (fuel : Nat) (name : String)
    (deps order : List String) (depth : Nat) (h : 11 - depth < fuel) :
    addInitF m fuel name deps order depth =
      some (addInit m name deps order depth) :=
  addInitF_eq m fuel name deps order depth h

/-- Witness for C10 at fuel 12, depth 0. -/
theorem claim_C10_witness :
    11 - 0 < 12 ∧
    addInitF [] 12 "a" [] [] 0 = some (addInit [] "a" [] [] 0) :=
  ⟨by decide, claim_C10 [] 12 "a" [] [] 0 (by decide)⟩

end AppModule
